import Mathlib

/-!
# safemap: a sequential model of `Map[K, V]`

Source: `src/safemap.go`. The Go type wraps a builtin `map[K]V` together with a
`sync.RWMutex`. This development models one thread of execution: every method
acquires and releases the mutex around its body, so the mutex is back in its
unlocked state between any two calls and is left out of the state.

Builtin maps are reference values. They are modelled by a heap of map objects
addressed by natural numbers; a Go map value is `nil` or such an address. Keys
are compared with a decidable equality (`K comparable`), the zero value of `V`
is `default`. Key types on which `==` is not reflexive (a floating-point NaN) or may
panic (an interface holding an uncomparable value) are outside the model.

The package `encoding/json` is not part of the repository: the methods take it as
a parameter `Codec`. Instances on `uint` keys serve as concrete examples.
-/

namespace Safemap

/-- Contents of one allocated builtin map object: entries with pairwise distinct keys. -/
abbrev Table (K V : Type) := AList (fun _ : K => V)

/-- Go value of type `map[K]V`: `none` is the nil map, `some r` refers to the object at `r`. -/
abbrev GoMap := Option Nat

/-- Byte slices and strings handled by the codec. -/
abbrev Bytes := List Char

/-- Heap of builtin map objects. Addresses below `next` have been handed out by `make`. -/
structure Heap (K V : Type) where
  cells : Nat → Table K V
  next : Nat

/-- Run-time panics raised by builtin map operations. -/
inductive GoPanic where
  | assignToNilMap
  deriving DecidableEq, Repr

/-- Order in which one `range` loop visits the entries of a map: any rearrangement. -/
structure IterOrder (K V : Type) where
  order : List (Sigma fun _ : K => V) → List (Sigma fun _ : K => V)
  perm : ∀ l, List.Perm (order l) l

/-- What decoding a document does to a target of type `map[K]V`: leaves it untouched
(the document is rejected before the target is reached), sets it to nil (top-level
`null`), or stores the members of a top-level object in document order. -/
inductive Decoded (K V : Type) where
  | untouched
  | null
  | object (members : List (K × V))

/-- Effect of `json.Unmarshal(data, &v)` on a map target: what is stored, and the error. -/
structure DecodeOutcome (K V : Type) where
  stores : Decoded K V
  err : Option String

/-- The package `encoding/json` as used by the source, taken as a parameter.
`marshal` receives the map value (`none` for the nil map, else its entries),
`unmarshal` reports what it stores into the target and the error it returns. -/
structure Codec (K V : Type) where
  marshal : Option (List (K × V)) → Except String Bytes
  unmarshal : Bytes → DecodeOutcome K V

/-- Struct `Map[K, V]` of the source: field `m` (the mutex carries no sequential state). -/
structure Map (K V : Type) where
  m : GoMap
  deriving DecidableEq

section Runtime

variable {K V : Type}

/-- Heap with no object allocated. -/
def Heap.init : Heap K V := ⟨fun _ => ∅, 0⟩

/-- Entries seen through a map value; the nil map reads as empty. -/
def Heap.table (h : Heap K V) : GoMap → Table K V
  | none => ∅
  | some r => h.cells r

/-- Replace the object stored at address `r`. -/
def Heap.put (h : Heap K V) (r : Nat) (t : Table K V) : Heap K V :=
  ⟨fun x => if x = r then t else h.cells x, h.next⟩

/-- Builtin `make(map[K]V, hint)`: allocates a fresh empty object. -/
def makemap (h : Heap K V) (_hint : Nat) : Heap K V × Nat :=
  (⟨fun x => if x = h.next then ∅ else h.cells x, h.next + 1⟩, h.next)

/-- Builtin `len(g)`. -/
def maplen (h : Heap K V) (g : GoMap) : Nat :=
  (h.table g).entries.length

/-- Entries of `g` in the order one `range` loop yields them. -/
def mapiter (it : IterOrder K V) (h : Heap K V) (g : GoMap) : List (K × V) :=
  (it.order (h.table g).entries).map (fun e => (e.1, e.2))

variable [DecidableEq K]

/-- Builtin `v, ok = g[key]`. -/
def mapaccess2 [Inhabited V] (h : Heap K V) (g : GoMap) (key : K) : V × Bool :=
  match (h.table g).lookup key with
  | some v => (v, true)
  | none => (default, false)

/-- Builtin `g[key] = value`: panics on the nil map. -/
def mapassign (h : Heap K V) (g : GoMap) (key : K) (value : V) : Except GoPanic (Heap K V) :=
  match g with
  | none => .error .assignToNilMap
  | some r => .ok (h.put r ((h.cells r).insert key value))

/-- Builtin `delete(g, key)`: no effect on the nil map or on an absent key. -/
def mapdelete (h : Heap K V) (g : GoMap) (key : K) : Heap K V :=
  match g with
  | none => h
  | some r => h.put r ((h.cells r).erase key)

/-- Heap in force after a call that may panic: a panicking call has written nothing. -/
def afterCall (h : Heap K V) : Except GoPanic (Heap K V) → Heap K V
  | .ok h1 => h1
  | .error _ => h

/-- Library call `json.Unmarshal(data, &v)` for a map variable `v`: a top-level
`null` sets `v` to nil; an object is stored member by member into the map `v`
holds (allocating one first when `v` is nil), later members overwriting earlier
ones with the same key. -/
def jsonUnmarshal (codec : Codec K V) (h : Heap K V) (v : GoMap) (data : Bytes) :
    Heap K V × GoMap × Option String :=
  let out := codec.unmarshal data
  match out.stores with
  | .untouched => (h, v, out.err)
  | .null => (h, none, out.err)
  | .object members =>
    let hv : Heap K V × Nat :=
      match v with
      | none => makemap h 0
      | some r => (h, r)
    (members.foldl (fun acc kv => acc.put hv.2 ((acc.cells hv.2).insert kv.1 kv.2)) hv.1,
      some hv.2, out.err)

/-- Map value as a reader sees it: `none` for the nil map, else the pairs it holds. -/
def Heap.view (h : Heap K V) (g : GoMap) : Option (List (K × V)) :=
  match g with
  | none => none
  | some r => some ((h.cells r).entries.map (fun e => (e.1, e.2)))

/-- Library call `json.Marshal(g)` for a map value `g`. -/
def jsonMarshal (codec : Codec K V) (h : Heap K V) (g : GoMap) : Except String Bytes :=
  codec.marshal (h.view g)

end Runtime

section Methods

variable {K V : Type}

/-- Function `New`: a struct whose field holds a freshly made map. -/
def New (h : Heap K V) : Heap K V × Map K V :=
  let a := makemap h 0
  (a.1, ⟨some a.2⟩)

/-- Method `Len`. -/
def Map.Len (h : Heap K V) (m : Map K V) : Nat :=
  maplen h m.m

/-- Method `Clear`: the field is pointed at a freshly made map. -/
def Map.Clear (h : Heap K V) (m : Map K V) : Heap K V × Map K V :=
  let a := makemap h 0
  (a.1, { m with m := some a.2 })

/-- Method `Random`: the first entry the `range` loop yields, if any. -/
def Map.Random [Inhabited K] [Inhabited V] (it : IterOrder K V) (h : Heap K V) (m : Map K V) :
    K × V × Bool :=
  match mapiter it h m.m with
  | [] => (default, default, false)
  | kv :: _ => (kv.1, kv.2, true)

/-- Method `Keys`: appends each key the loop yields to a nil slice. -/
def Map.Keys (it : IterOrder K V) (h : Heap K V) (m : Map K V) : List K :=
  (mapiter it h m.m).foldl (fun keys kv => keys ++ [kv.1]) []

/-- Method `Values`: appends each value the loop yields to a nil slice. -/
def Map.Values (it : IterOrder K V) (h : Heap K V) (m : Map K V) : List V :=
  (mapiter it h m.m).foldl (fun values kv => values ++ [kv.2]) []

variable [DecidableEq K]

/-- Method `Get`. -/
def Map.Get [Inhabited V] (h : Heap K V) (m : Map K V) (key : K) : V × Bool :=
  mapaccess2 h m.m key

/-- Method `Set`. -/
def Map.Set (h : Heap K V) (m : Map K V) (key : K) (value : V) : Except GoPanic (Heap K V) :=
  mapassign h m.m key value

/-- Method `Delete`. -/
def Map.Delete (h : Heap K V) (m : Map K V) (key : K) : Heap K V :=
  mapdelete h m.m key

/-- Method `All`: makes a map sized by `len(m.m)` and assigns every entry the loop yields. -/
def Map.All (it : IterOrder K V) (h : Heap K V) (m : Map K V) :
    Except GoPanic (Heap K V × GoMap) :=
  let a := makemap h (maplen h m.m)
  let all : GoMap := some a.2
  (mapiter it a.1 m.m).foldlM (fun acc kv => mapassign acc all kv.1 kv.2) a.1
    |>.map (fun h1 => (h1, all))

/-- Method `MarshalJSON`. -/
def Map.MarshalJSON (codec : Codec K V) (h : Heap K V) (m : Map K V) : Except String Bytes :=
  jsonMarshal codec h m.m

/-- Method `UnmarshalJSON`: decodes into a freshly made map `v`; returns the error
without touching the field when there is one, else stores `v` in the field. -/
def Map.UnmarshalJSON (codec : Codec K V) (h : Heap K V) (m : Map K V) (data : Bytes) :
    Heap K V × Map K V × Option String :=
  let a := makemap h 0
  let d := jsonUnmarshal codec a.1 (some a.2) data
  match d.2.2 with
  | some err => (d.1, m, some err)
  | none => (d.1, { m with m := d.2.1 }, none)

/-- Method `MarshalText`. -/
def Map.MarshalText (codec : Codec K V) (h : Heap K V) (m : Map K V) : Except String Bytes :=
  m.MarshalJSON codec h

/-- Method `UnmarshalText`. -/
def Map.UnmarshalText (codec : Codec K V) (h : Heap K V) (m : Map K V) (data : Bytes) :
    Heap K V × Map K V × Option String :=
  m.UnmarshalJSON codec h data

end Methods

section JSON

/-- Decimal text of a `uint`. -/
def formatUint (n : Nat) : Bytes :=
  Nat.toDigits 10 n

/-- Decimal text read as a `uint` (64 bits): digits only, at least one. -/
def parseUint (s : Bytes) : Option Nat :=
  if s = [] ∨ s.all Char.isDigit = false then none
  else
    let n := s.foldl (fun acc c => 10 * acc + (c.toNat - 48)) 0
    if n < 2 ^ 64 then some n else none

/-- Number literal of the text format read as a `uint`: no leading zero. -/
def parseNumber (s : Bytes) : Option Nat :=
  match s with
  | '0' :: _ :: _ => none
  | _ => parseUint s

/-- Pieces of a text between its commas. -/
def splitComma : Bytes → List Bytes
  | [] => [[]]
  | c :: cs =>
    match splitComma cs with
    | [] => [[c]]
    | piece :: pieces => if c = ',' then [] :: piece :: pieces else (c :: piece) :: pieces

/-- One object member in compact form: a quoted decimal key, a colon and a value. -/
def parseMember {V : Type} (parseValue : Bytes → Option V) (s : Bytes) : Option (Nat × V) :=
  match s with
  | '"' :: rest =>
    match rest.dropWhile Char.isDigit with
    | '"' :: ':' :: val =>
      match parseUint (rest.takeWhile Char.isDigit), parseValue val with
      | some k, some v => some (k, v)
      | _, _ => none
    | _ => none
  | _ => none

/-- Lexicographic order on texts by character code. -/
def textLe : Bytes → Bytes → Bool
  | [], _ => true
  | _ :: _, [] => false
  | a :: as, b :: bs => if a.toNat < b.toNat then true else if b.toNat < a.toNat then false
    else textLe as bs

/-- Insertion of a member into a list sorted by the text of the keys. -/
def insertMember {V : Type} (e : Nat × V) : List (Nat × V) → List (Nat × V)
  | [] => [e]
  | x :: xs =>
    if textLe (formatUint e.1) (formatUint x.1) then e :: x :: xs else x :: insertMember e xs

/-- Members joined by commas. -/
def joinMembers {V : Type} (formatValue : V → Bytes) : List (Nat × V) → Bytes
  | [] => []
  | [e] => '"' :: formatUint e.1 ++ '"' :: ':' :: formatValue e.2
  | e :: es =>
    ('"' :: formatUint e.1 ++ '"' :: ':' :: formatValue e.2) ++ ',' :: joinMembers formatValue es

/-- Behaviour of `encoding/json` on `map[uint]V`, given the text of a value of `V`
and its reading, restricted on the decoding side to `null` and to objects in compact
form (no blanks, no escapes in keys, no comma inside a value). A nil map encodes as
`null`, any other map as an object whose members are sorted by key text. Decoding
`null` sets the target to nil. Inputs outside this fragment are reported as errors
that store nothing. -/
def objectCodec {V : Type} (formatValue : V → Bytes) (parseValue : Bytes → Option V) :
    Codec Nat V where
  marshal := fun g =>
    match g with
    | none => .ok ['n', 'u', 'l', 'l']
    | some es =>
      .ok ((Char.ofNat 123) :: joinMembers formatValue (es.foldr insertMember [])
        ++ [Char.ofNat 125])
  unmarshal := fun data =>
    if data = ['n', 'u', 'l', 'l'] then ⟨.null, none⟩
    else
      match data with
      | c :: rest =>
        if c = Char.ofNat 123 ∧ rest.getLast? = some (Char.ofNat 125) then
          if rest.dropLast = [] then ⟨.object [], none⟩
          else
            match (splitComma rest.dropLast).mapM (parseMember parseValue) with
            | some ms => ⟨.object ms, none⟩
            | none => ⟨.untouched, some "json: cannot decode object member"⟩
        else ⟨.untouched, some "json: cannot decode document"⟩
      | [] => ⟨.untouched, some "unexpected end of JSON input"⟩

/-- Codec for `Map[uint, uint]`: values are number literals. -/
def goJSON : Codec Nat Nat :=
  objectCodec formatUint parseNumber

/-- Codec for `Map[uint, S]` with `type S struct{ a uint }`, a value of `S` being
given by its field. The field is unexported, so the package leaves it out: every
value encodes as the empty object and the empty object decodes to the zero value. -/
def goJSONUnexported : Codec Nat Nat :=
  objectCodec (fun _ => [Char.ofNat 123, Char.ofNat 125])
    (fun s => if s = [Char.ofNat 123, Char.ofNat 125] then some 0 else none)

/-- Codec for `Map[uint, uint]` that keeps to 64-bit numbers: a larger number is not a
value of the Go type and is refused; everything else is `goJSON`. -/
def goJSONUint : Codec Nat Nat where
  marshal := fun g =>
    match g with
    | none => goJSON.marshal none
    | some es =>
      if es.all (fun e => decide (e.1 < 2 ^ 64) && decide (e.2 < 2 ^ 64)) then
        goJSON.marshal (some es)
      else .error "json: number out of range for uint"
  unmarshal := goJSON.unmarshal

/-- Text of one member of an object on `uint` keys and values. -/
def memberText (e : Nat × Nat) : Bytes :=
  '"' :: formatUint e.1 ++ '"' :: ':' :: formatUint e.2

/-- Iteration order that visits the entries as they are stored. -/
def storedOrder (K V : Type) : IterOrder K V where
  order := fun l => l
  perm := fun l => List.Perm.refl l

/-- Iteration order that visits the stored entries backwards. -/
def reversedOrder (K V : Type) : IterOrder K V where
  order := fun l => l.reverse
  perm := fun l => List.reverse_perm l

end JSON

section Derived

variable {K V : Type}

/-- The container held by the struct is nil or an object that `make` has handed out. -/
def Map.Allocated (h : Heap K V) (m : Map K V) : Prop :=
  match m.m with
  | none => True
  | some r => r < h.next

instance (h : Heap K V) (m : Map K V) : Decidable (m.Allocated h) :=
  match m with
  | ⟨none⟩ => isTrue trivial
  | ⟨some r⟩ => inferInstanceAs (Decidable (r < h.next))

/-- Table built by assigning the given pairs, in order, into an empty map. -/
def assignAll [DecidableEq K] (l : List (K × V)) : Table K V :=
  l.foldl (fun t kv => t.insert kv.1 kv.2) ∅

/-- Contents of the container that `All` returns. -/
def Map.snapshot [DecidableEq K] (it : IterOrder K V) (h : Heap K V) (m : Map K V) :
    Except GoPanic (Table K V) :=
  (m.All it h).map (fun r => r.1.table r.2)

/-- Pairs denoted by a decoded document, as a partial function of the key: the last
member with that key gives the value; `null` denotes no pair. -/
def Decoded.binding [DecidableEq K] : Decoded K V → K → Option V
  | .untouched, _ => none
  | .null, _ => none
  | .object members, k => (members.reverse.find? (fun kv => decide (kv.1 = k))).map Prod.snd

/-- The document `d` is an error-free encoding of the map value `x`: `null` for the
nil map, else an object whose members are the entries of `x` in some order. -/
def Codec.DecodesTo (codec : Codec K V) (d : Bytes) (x : Option (List (K × V))) : Prop :=
  (codec.unmarshal d).err = none ∧
    match x, (codec.unmarshal d).stores with
    | none, .null => True
    | some es, .object members => List.Perm members es
    | _, _ => False

/-- Table a decoded document leaves in a freshly made target map. -/
def Decoded.table [DecidableEq K] : Decoded K V → Table K V
  | .untouched => ∅
  | .null => ∅
  | .object members => assignAll members

/-- State reached by `New()` followed by `UnmarshalJSON([]byte("null"))` on a
`Map[uint, uint]`, starting from the empty heap. -/
def afterNullDocument : Heap Nat Nat × Map Nat Nat × Option String :=
  (New Heap.init).2.UnmarshalJSON goJSON (New Heap.init).1 ['n', 'u', 'l', 'l']

/-- One mutating call on a map. -/
inductive Call (K V : Type) where
  | set (key : K) (value : V)
  | delete (key : K)
  | clear
  | deserialize (data : Bytes)

/-- Heap and struct after one mutating call; a panicking `Set` leaves both as they were. -/
def step [DecidableEq K] (codec : Codec K V) (s : Heap K V × Map K V) :
    Call K V → Heap K V × Map K V
  | .set key value => (afterCall s.1 (s.2.Set s.1 key value), s.2)
  | .delete key => (s.2.Delete s.1 key, s.2)
  | .clear => s.2.Clear s.1
  | .deserialize data =>
    ((s.2.UnmarshalJSON codec s.1 data).1, (s.2.UnmarshalJSON codec s.1 data).2.1)

/-- State reached from `New()` on the empty heap by a sequence of mutating calls. -/
def run [DecidableEq K] (codec : Codec K V) (calls : List (Call K V)) : Heap K V × Map K V :=
  calls.foldl (step codec) (New Heap.init)

/-- The call is a `Set` or a `Delete` on a key other than `k`. -/
def Call.avoids (k : K) : Call K V → Prop
  | .set key _ => key ≠ k
  | .delete key => key ≠ k
  | .clear => False
  | .deserialize _ => False

/-- Round trip through the document `d`: `UnmarshalJSON(d)` on an instance made by
`New` succeeds, and the container its `All` returns holds exactly the pairs of the
container that `All` returns on the original map. -/
def RoundTrip [DecidableEq K] (codec : Codec K V) (it1 it2 : IterOrder K V) (h : Heap K V)
    (m : Map K V) (d : Bytes) : Prop :=
  ((New h).2.UnmarshalJSON codec (New h).1 d).2.2 = none ∧
  ∃ t1 t2,
    ((New h).2.UnmarshalJSON codec (New h).1 d).2.1.snapshot it1
        ((New h).2.UnmarshalJSON codec (New h).1 d).1 = .ok t1 ∧
    m.snapshot it2 h = .ok t2 ∧
    ∀ e, e ∈ t1.entries ↔ e ∈ t2.entries

/-- State reached by `New()` followed by `Set(1, S{a: 7})`, the value given by its field. -/
def sevenEntry : Heap Nat Nat × Map Nat Nat :=
  (afterCall (New Heap.init).1 ((New Heap.init).2.Set (New Heap.init).1 1 7), (New Heap.init).2)

/-- State reached by `New()` followed by `Set(1, 1)` on a `Map[uint, uint]`. -/
def oneEntry : Heap Nat Nat × Map Nat Nat :=
  (afterCall (New Heap.init).1 ((New Heap.init).2.Set (New Heap.init).1 1 1), (New Heap.init).2)

end Derived

/-! ## The mutex made explicit

The methods above are the bodies the source runs between acquiring and releasing
the mutex. Below, each method is written out again statement by statement as a
computation that records what it does to the mutex and when it touches the
container, that is the field `m` or the map the field refers to. Maps held only in a
local variable (`all`, `v`) are not the container.
-/

section Locking

/-- State of the reader-writer mutex of one struct, as one thread drives it. -/
inductive LockState where
  | unlocked
  | shared
  | exclusive
  deriving DecidableEq, Repr

/-- Mutex operations and accesses to the container, in the order a method performs them. -/
inductive Event where
  | rlock
  | runlock
  | lock
  | unlock
  | read
  | write
  deriving DecidableEq, Repr

/-- Lock state after one event, `none` when the event cannot take place in that state:
an acquisition while the mutex is held, a release of a mutex not held in that mode, a
read of the container without the mutex, a write without holding it exclusively. -/
def LockState.after : LockState → Event → Option LockState
  | .unlocked, .rlock => some .shared
  | .unlocked, .lock => some .exclusive
  | .shared, .runlock => some .unlocked
  | .exclusive, .unlock => some .unlocked
  | .shared, .read => some .shared
  | .exclusive, .read => some .exclusive
  | .exclusive, .write => some .exclusive
  | _, _ => none

/-- Lock state after a sequence of events, `none` as soon as one cannot take place. -/
def replay (s : LockState) : List Event → Option LockState
  | [] => some s
  | e :: t =>
    match s.after e with
    | none => none
    | some s1 => replay s1 t

/-- Computation that records the events it performs. -/
structure Traced (α : Type) where
  events : List Event
  value : α

instance : Monad Traced where
  pure a := ⟨[], a⟩
  bind x f := ⟨x.events ++ (f x.value).events, (f x.value).value⟩

/-- Perform a mutex operation. -/
def emit (e : Event) : Traced Unit := ⟨[e], ()⟩

/-- Value obtained by reading the container. -/
def reading {α : Type} (a : α) : Traced α := ⟨[.read], a⟩

/-- Result of a statement that writes the container. -/
def writing {α : Type} (a : α) : Traced α := ⟨[.write], a⟩

/-- Entries yielded by a `range` loop over the container: the loop reads the container
when it starts and once more for every entry it yields. -/
def ranging {α : Type} (l : List α) : Traced (List α) := ⟨.read :: l.map (fun _ => .read), l⟩

variable {K V : Type}

/-- Method `Len` with its mutex operations (the deferred release runs last). -/
def Locked.Len (h : Heap K V) (m : Map K V) : Traced Nat := do
  emit .rlock
  let n ← reading (maplen h m.m)
  emit .runlock
  pure n

/-- Method `Clear` with its mutex operations. -/
def Locked.Clear (h : Heap K V) (m : Map K V) : Traced (Heap K V × Map K V) := do
  emit .lock
  let a := makemap h 0
  let s ← writing (a.1, { m with m := some a.2 })
  emit .unlock
  pure s

/-- Method `Random` with its mutex operations: the loop returns at the first entry. -/
def Locked.Random [Inhabited K] [Inhabited V] (it : IterOrder K V) (h : Heap K V)
    (m : Map K V) : Traced (K × V × Bool) := do
  emit .rlock
  let entries ← ranging ((mapiter it h m.m).take 1)
  emit .runlock
  match entries with
  | [] => pure (default, default, false)
  | kv :: _ => pure (kv.1, kv.2, true)

/-- Method `Keys` with its mutex operations. -/
def Locked.Keys (it : IterOrder K V) (h : Heap K V) (m : Map K V) : Traced (List K) := do
  emit .rlock
  let entries ← ranging (mapiter it h m.m)
  emit .runlock
  pure (entries.foldl (fun keys kv => keys ++ [kv.1]) [])

/-- Method `Values` with its mutex operations. -/
def Locked.Values (it : IterOrder K V) (h : Heap K V) (m : Map K V) : Traced (List V) := do
  emit .rlock
  let entries ← ranging (mapiter it h m.m)
  emit .runlock
  pure (entries.foldl (fun values kv => values ++ [kv.2]) [])

/-- Method `MarshalJSON` with its mutex operations. -/
def Locked.MarshalJSON (codec : Codec K V) (h : Heap K V) (m : Map K V) :
    Traced (Except String Bytes) := do
  emit .rlock
  let r ← reading (jsonMarshal codec h m.m)
  emit .runlock
  pure r

/-- Method `MarshalText`. -/
def Locked.MarshalText (codec : Codec K V) (h : Heap K V) (m : Map K V) :
    Traced (Except String Bytes) :=
  Locked.MarshalJSON codec h m

variable [DecidableEq K]

/-- Method `Get` with its mutex operations. -/
def Locked.Get [Inhabited V] (h : Heap K V) (m : Map K V) (key : K) : Traced (V × Bool) := do
  emit .rlock
  let r ← reading (mapaccess2 h m.m key)
  emit .runlock
  pure r

/-- Method `Set` with its mutex operations; the deferred release also runs when the
assignment panics. -/
def Locked.Set (h : Heap K V) (m : Map K V) (key : K) (value : V) :
    Traced (Except GoPanic (Heap K V)) := do
  emit .lock
  let r ← writing (mapassign h m.m key value)
  emit .unlock
  pure r

/-- Method `Delete` with its mutex operations. -/
def Locked.Delete (h : Heap K V) (m : Map K V) (key : K) : Traced (Heap K V) := do
  emit .lock
  let h1 ← writing (mapdelete h m.m key)
  emit .unlock
  pure h1

/-- Method `All` with its mutex operations. -/
def Locked.All (it : IterOrder K V) (h : Heap K V) (m : Map K V) :
    Traced (Except GoPanic (Heap K V × GoMap)) := do
  emit .rlock
  let n ← reading (maplen h m.m)
  let a := makemap h n
  let all : GoMap := some a.2
  let entries ← ranging (mapiter it a.1 m.m)
  let r := entries.foldlM (fun acc kv => mapassign acc all kv.1 kv.2) a.1
  emit .runlock
  pure (r.map (fun h1 => (h1, all)))

/-- Method `UnmarshalJSON` with its mutex operations: the map `v` is made and decoded
into before the mutex is touched, and an error returns at once. -/
def Locked.UnmarshalJSON (codec : Codec K V) (h : Heap K V) (m : Map K V) (data : Bytes) :
    Traced (Heap K V × Map K V × Option String) :=
  let a := makemap h 0
  let d := jsonUnmarshal codec a.1 (some a.2) data
  match d.2.2 with
  | some err => pure (d.1, m, some err)
  | none => do
    emit .lock
    let s ← writing (d.1, { m with m := d.2.1 }, (none : Option String))
    emit .unlock
    pure s

/-- Method `UnmarshalText`. -/
def Locked.UnmarshalText (codec : Codec K V) (h : Heap K V) (m : Map K V) (data : Bytes) :
    Traced (Heap K V × Map K V × Option String) :=
  Locked.UnmarshalJSON codec h m data

/-- One call of a method of the struct. -/
inductive Method (K V : Type) where
  | get (key : K)
  | set (key : K) (value : V)
  | all (it : IterOrder K V)
  | delete (key : K)
  | clear
  | len
  | random (it : IterOrder K V)
  | keys (it : IterOrder K V)
  | values (it : IterOrder K V)
  | marshalJSON
  | unmarshalJSON (data : Bytes)
  | marshalText
  | unmarshalText (data : Bytes)

/-- Events the call performs. -/
def Method.events [Inhabited K] [Inhabited V] (codec : Codec K V) (h : Heap K V) (m : Map K V) :
    Method K V → List Event
  | .get key => (Locked.Get h m key).events
  | .set key value => (Locked.Set h m key value).events
  | .all it => (Locked.All it h m).events
  | .delete key => (Locked.Delete h m key).events
  | .clear => (Locked.Clear h m).events
  | .len => (Locked.Len h m).events
  | .random it => (Locked.Random it h m).events
  | .keys it => (Locked.Keys it h m).events
  | .values it => (Locked.Values it h m).events
  | .marshalJSON => (Locked.MarshalJSON codec h m).events
  | .unmarshalJSON data => (Locked.UnmarshalJSON codec h m data).events
  | .marshalText => (Locked.MarshalText codec h m).events
  | .unmarshalText data => (Locked.UnmarshalText codec h m data).events

/-- Heap and struct after the call; a panicking call has written nothing, and the
methods that return no heap leave it as it is. -/
def Method.after (codec : Codec K V) (h : Heap K V) (m : Map K V) :
    Method K V → Heap K V × Map K V
  | .set key value => (afterCall h (m.Set h key value), m)
  | .all it =>
    match m.All it h with
    | .ok r => (r.1, m)
    | .error _ => (h, m)
  | .delete key => (m.Delete h key, m)
  | .clear => m.Clear h
  | .unmarshalJSON data => ((m.UnmarshalJSON codec h data).1, (m.UnmarshalJSON codec h data).2.1)
  | .unmarshalText data => ((m.UnmarshalText codec h data).1, (m.UnmarshalText codec h data).2.1)
  | _ => (h, m)

/-- The read-only methods: `Get`, `Len`, `All`, `Keys`, `Values`, `Random` and the two
serializing hooks. -/
def Method.isReader : Method K V → Bool
  | .get _ => true
  | .all _ => true
  | .len => true
  | .random _ => true
  | .keys _ => true
  | .values _ => true
  | .marshalJSON => true
  | .marshalText => true
  | _ => false

/-- Mode in which the call has to hold the mutex: shared for the read-only methods,
exclusive for `Set`, `Delete`, `Clear` and for a deserialization whose decoding
succeeds; a deserialization whose decoding fails is not to acquire it (`unlocked`). -/
def Method.requiredMode (codec : Codec K V) (c : Method K V) : LockState :=
  match c with
  | .set _ _ => .exclusive
  | .delete _ => .exclusive
  | .clear => .exclusive
  | .unmarshalJSON data => if (codec.unmarshal data).err.isSome then .unlocked else .exclusive
  | .unmarshalText data => if (codec.unmarshal data).err.isSome then .unlocked else .exclusive
  | _ => .shared

/-- The events are those of a call that holds the mutex in the given mode around all
its accesses to the container: no event at all for `unlocked`; for `shared`, a read
lock, then reads only, then its release; for `exclusive`, the write lock, then reads
and writes, then its release. -/
def HeldIn (mode : LockState) (t : List Event) : Prop :=
  match mode with
  | .unlocked => t = []
  | .shared => ∃ n, t = .rlock :: List.replicate n .read ++ [.runlock]
  | .exclusive => ∃ body, t = .lock :: body ++ [.unlock] ∧ ∀ e ∈ body, e = .read ∨ e = .write

end Locking

/-! ## Heap and table lemmas -/

section Lemmas

variable {K V : Type}

@[simp] theorem Heap.put_cells (h : Heap K V) (r : Nat) (t : Table K V) (x : Nat) :
    (h.put r t).cells x = if x = r then t else h.cells x := rfl

@[simp] theorem Heap.put_next (h : Heap K V) (r : Nat) (t : Table K V) :
    (h.put r t).next = h.next := rfl

@[simp] theorem makemap_cells (h : Heap K V) (n x : Nat) :
    (makemap h n).1.cells x = if x = h.next then ∅ else h.cells x := rfl

@[simp] theorem makemap_next (h : Heap K V) (n : Nat) :
    (makemap h n).1.next = h.next + 1 := rfl

@[simp] theorem makemap_addr (h : Heap K V) (n : Nat) : (makemap h n).2 = h.next := rfl

@[simp] theorem Heap.table_none (h : Heap K V) : h.table none = ∅ := rfl

@[simp] theorem Heap.table_some (h : Heap K V) (r : Nat) : h.table (some r) = h.cells r := rfl

theorem Map.Allocated.lt {h : Heap K V} {m : Map K V} (ha : m.Allocated h) (r : Nat)
    (hm : m.m = some r) : r < h.next := by
  unfold Map.Allocated at ha
  rw [hm] at ha
  exact ha

theorem Heap.ext_cells {h1 h2 : Heap K V} (hc : ∀ x, h1.cells x = h2.cells x)
    (hn : h1.next = h2.next) : h1 = h2 := by
  cases h1; cases h2
  simp only at hc hn
  simp only [Heap.mk.injEq]
  exact ⟨funext hc, hn⟩

theorem Heap.put_put (h : Heap K V) (r : Nat) (t t1 : Table K V) :
    (h.put r t).put r t1 = h.put r t1 := by
  apply Heap.ext_cells
  · intro x; by_cases hx : x = r <;> simp [hx]
  · rfl

theorem Heap.put_self (h : Heap K V) (r : Nat) : h.put r (h.cells r) = h := by
  apply Heap.ext_cells
  · intro x; by_cases hx : x = r <;> simp [hx]
  · rfl

/-- An allocated container is untouched by a later `make`. -/
theorem table_makemap (h : Heap K V) (m : Map K V) (n : Nat) (ha : m.Allocated h) :
    (makemap h n).1.table m.m = h.table m.m := by
  cases hm : m.m with
  | none => rfl
  | some r =>
    have hr : r ≠ h.next := Nat.ne_of_lt (ha.lt r hm)
    simp [hr]

variable [DecidableEq K]

theorem foldl_put_insert (l : List (K × V)) (h : Heap K V) (r : Nat) :
    l.foldl (fun acc kv => acc.put r ((acc.cells r).insert kv.1 kv.2)) h
      = h.put r (l.foldl (fun t kv => t.insert kv.1 kv.2) (h.cells r)) := by
  induction l generalizing h with
  | nil => simp [Heap.put_self]
  | cons kv l ih => simp [ih, Heap.put_put]

theorem foldlM_mapassign (l : List (K × V)) (h : Heap K V) (r : Nat) :
    l.foldlM (fun acc kv => mapassign acc (some r) kv.1 kv.2) h
      = .ok (h.put r (l.foldl (fun t kv => t.insert kv.1 kv.2) (h.cells r))) := by
  induction l generalizing h with
  | nil => simp [Heap.put_self, pure, Except.pure]
  | cons kv l ih =>
    have hstep : mapassign h (some r) kv.1 kv.2
        = .ok (h.put r ((h.cells r).insert kv.1 kv.2)) := rfl
    rw [List.foldlM_cons, hstep]
    show List.foldlM _ (h.put r ((h.cells r).insert kv.1 kv.2)) l = _
    rw [ih]
    simp [Heap.put_put]

/-- Assigning entries with distinct keys, none of them present yet, puts them in
front of the table in reverse order. -/
theorem foldl_insert_entries (l : List (Sigma fun _ : K => V)) (t : Table K V)
    (hl : l.NodupKeys) (hd : ∀ e ∈ l, e.1 ∉ t) :
    (l.foldl (fun acc e => acc.insert e.1 e.2) t).entries = l.reverse ++ t.entries := by
  induction l generalizing t with
  | nil => simp
  | cons e l ih =>
    have he : e.1 ∉ t := hd e (List.mem_cons_self _ _)
    rw [List.nodupKeys_cons] at hl
    simp only [List.foldl_cons]
    rw [ih _ hl.2]
    · rw [AList.insert_entries_of_neg he]; simp
    · intro x hx
      rw [AList.mem_insert]
      rintro (h1 | h1)
      · exact hl.1 (h1 ▸ List.mem_keys_of_mem hx)
      · exact hd x (List.mem_cons_of_mem _ hx) h1

/-- The copy loop of `All` rebuilds the entries of the table it ranges over. -/
theorem assignAll_perm (it : IterOrder K V) (t : Table K V) :
    List.Perm (assignAll ((it.order t.entries).map (fun e => (e.1, e.2)))).entries t.entries := by
  unfold assignAll
  rw [List.foldl_map]
  have hnd : (it.order t.entries).NodupKeys :=
    (List.perm_nodupKeys (it.perm t.entries)).2 t.nodupKeys
  have := foldl_insert_entries (it.order t.entries) (∅ : Table K V) hnd
    (fun e _ => AList.not_mem_empty e.1)
  simp only at this
  rw [this]
  simp only [AList.empty_entries, List.append_nil]
  exact (List.reverse_perm _).trans (it.perm _)

theorem lookup_foldl_insert (l : List (K × V)) (t : Table K V) (k : K) :
    (l.foldl (fun acc kv => acc.insert kv.1 kv.2) t).lookup k
      = ((l.reverse.find? (fun kv => decide (kv.1 = k))).map Prod.snd).or (t.lookup k) := by
  induction l generalizing t with
  | nil => simp
  | cons kv l ih =>
    simp only [List.foldl_cons, List.reverse_cons, List.find?_append]
    rw [ih]
    cases hf : l.reverse.find? (fun kv => decide (kv.1 = k)) with
    | some x => simp
    | none =>
      by_cases hk : kv.1 = k
      · subst hk; simp [List.find?, AList.lookup_insert]
      · have hk2 : k ≠ kv.1 := fun e => hk e.symm
        simp [List.find?, hk, AList.lookup_insert_ne hk2]

/-- What `All` returns on a map whose container is allocated: a fresh object at the
next free address, holding the pairs assigned by the loop. -/
theorem All_eq (it : IterOrder K V) (h : Heap K V) (m : Map K V) (ha : m.Allocated h) :
    m.All it h = .ok ((makemap h (maplen h m.m)).1.put h.next (assignAll (mapiter it h m.m)),
      some h.next) := by
  unfold Map.All
  simp only [makemap_addr]
  rw [foldlM_mapassign]
  have hit : mapiter it (makemap h (maplen h m.m)).1 m.m = mapiter it h m.m := by
    unfold mapiter; rw [table_makemap h m _ ha]
  rw [hit]
  simp [Except.map, assignAll]

theorem snapshot_eq (it : IterOrder K V) (h : Heap K V) (m : Map K V) (ha : m.Allocated h) :
    m.snapshot it h = .ok (assignAll (mapiter it h m.m)) := by
  unfold Map.snapshot
  rw [All_eq it h m ha]
  simp [Except.map]

theorem lookup_assignAll_mapiter (it : IterOrder K V) (h : Heap K V) (g : GoMap) (k : K) :
    (assignAll (mapiter it h g)).lookup k = (h.table g).lookup k :=
  AList.perm_lookup (assignAll_perm it (h.table g))

theorem erase_of_not_mem (t : Table K V) (k : K) (hk : k ∉ t) : t.erase k = t :=
  AList.ext (List.kerase_of_not_mem_keys hk)

theorem erase_twice (t : Table K V) (k : K) : (t.erase k).erase k = t.erase k :=
  erase_of_not_mem _ k (fun hmem => ((AList.mem_erase).1 hmem).1 rfl)

/-- Assigning pairs that rearrange the entries of a table rebuilds its entries. -/
theorem assignAll_perm_of_perm (l : List (K × V)) (t : Table K V)
    (hp : List.Perm l (t.entries.map (fun e => (e.1, e.2)))) :
    List.Perm (assignAll l).entries t.entries := by
  have hp2 : List.Perm (l.map (fun kv => (⟨kv.1, kv.2⟩ : Sigma fun _ : K => V))) t.entries := by
    have := hp.map (fun kv => (⟨kv.1, kv.2⟩ : Sigma fun _ : K => V))
    simpa [List.map_map, Function.comp_def] using this
  have hnd : (l.map (fun kv => (⟨kv.1, kv.2⟩ : Sigma fun _ : K => V))).NodupKeys :=
    (List.perm_nodupKeys hp2).2 t.nodupKeys
  have hfold := foldl_insert_entries _ (∅ : Table K V) hnd (fun e _ => AList.not_mem_empty e.1)
  unfold assignAll
  rw [List.foldl_map] at hfold
  simp only at hfold
  rw [hfold]
  simp only [AList.empty_entries, List.append_nil]
  exact (List.reverse_perm _).trans hp2

/-- Shape of a successful `UnmarshalJSON`: no error, the container holds the table
of the decoded document and is nil or allocated. -/
theorem UnmarshalJSON_ok (codec : Codec K V) (h : Heap K V) (m : Map K V) (data : Bytes)
    (hok : (codec.unmarshal data).err = none) :
    (m.UnmarshalJSON codec h data).2.2 = none ∧
    (m.UnmarshalJSON codec h data).1.table (m.UnmarshalJSON codec h data).2.1.m
      = (codec.unmarshal data).stores.table ∧
    (m.UnmarshalJSON codec h data).2.1.Allocated (m.UnmarshalJSON codec h data).1 := by
  cases hs : (codec.unmarshal data).stores with
  | untouched =>
    simp [Map.UnmarshalJSON, jsonUnmarshal, hs, hok, Decoded.table, Map.Allocated]
  | null =>
    simp [Map.UnmarshalJSON, jsonUnmarshal, hs, hok, Decoded.table, Map.Allocated]
  | object members =>
    simp only [Map.UnmarshalJSON, jsonUnmarshal, hs, hok, makemap_addr]
    rw [foldl_put_insert]
    simp [Decoded.table, assignAll, Map.Allocated]

theorem lookup_Decoded_table (d : Decoded K V) (k : K) : d.table.lookup k = d.binding k := by
  cases d with
  | untouched => rfl
  | null => rfl
  | object members =>
    simp only [Decoded.table, assignAll, Decoded.binding]
    rw [lookup_foldl_insert]
    simp

theorem UnmarshalJSON_Allocated (codec : Codec K V) (h : Heap K V) (m : Map K V)
    (data : Bytes) (ha : m.Allocated h) :
    (m.UnmarshalJSON codec h data).2.1.Allocated (m.UnmarshalJSON codec h data).1 := by
  cases he : (codec.unmarshal data).err with
  | none => exact (UnmarshalJSON_ok codec h m data he).2.2
  | some e =>
    have hlt : ∀ r, m.m = some r → r < h.next + 1 := fun r hr => Nat.lt_succ_of_lt (ha.lt r hr)
    cases hs : (codec.unmarshal data).stores with
    | untouched =>
      cases hm : m.m with
      | none => simp [Map.UnmarshalJSON, jsonUnmarshal, hs, he, Map.Allocated, hm]
      | some r => simpa [Map.UnmarshalJSON, jsonUnmarshal, hs, he, Map.Allocated, hm] using hlt r hm
    | null =>
      cases hm : m.m with
      | none => simp [Map.UnmarshalJSON, jsonUnmarshal, hs, he, Map.Allocated, hm]
      | some r => simpa [Map.UnmarshalJSON, jsonUnmarshal, hs, he, Map.Allocated, hm] using hlt r hm
    | object members =>
      simp only [Map.UnmarshalJSON, jsonUnmarshal, hs, he, makemap_addr]
      rw [foldl_put_insert]
      cases hm : m.m with
      | none => simp [Map.Allocated, hm]
      | some r => simpa [Map.Allocated, hm] using hlt r hm

/-- Every mutating call keeps the container nil or allocated. -/
theorem step_Allocated (codec : Codec K V) (s : Heap K V × Map K V) (c : Call K V)
    (ha : s.2.Allocated s.1) : (step codec s c).2.Allocated (step codec s c).1 := by
  cases c with
  | set key value =>
    cases hm : s.2.m with
    | none => simpa [step, Map.Set, mapassign, afterCall, hm] using ha
    | some r => simpa [step, Map.Set, mapassign, afterCall, hm, Map.Allocated] using ha.lt r hm
  | delete key =>
    cases hm : s.2.m with
    | none => simpa [step, Map.Delete, mapdelete, hm] using ha
    | some r => simpa [step, Map.Delete, mapdelete, hm, Map.Allocated] using ha.lt r hm
  | clear => simp [step, Map.Clear, Map.Allocated]
  | deserialize data => exact UnmarshalJSON_Allocated codec s.1 s.2 data ha

/-- In every state reached from `New()` the container is nil or allocated. -/
theorem run_Allocated (codec : Codec K V) (calls : List (Call K V)) :
    (run codec calls).2.Allocated (run codec calls).1 := by
  unfold run
  induction calls using List.reverseRecOn with
  | nil => simp [New, Map.Allocated]
  | append_singleton l c ih =>
    rw [List.foldl_append]
    exact step_Allocated codec _ c ih

/-- In every state reached from `New()`, `All` returns for every iteration order. -/
theorem All_returns_of_run (codec : Codec K V) (it : IterOrder K V) (calls : List (Call K V)) :
    ∃ r, (run codec calls).2.All it (run codec calls).1 = .ok r :=
  ⟨_, All_eq it _ _ (run_Allocated codec calls)⟩

/-- Method `Set` succeeds exactly on a non-nil container. -/
theorem Set_ok_iff (h : Heap K V) (m : Map K V) (key : K) (value : V) :
    (∃ h1, m.Set h key value = .ok h1) ↔ m.m ≠ none := by
  unfold Map.Set mapassign
  cases m.m <;> simp

/-- On a non-nil container `Set(k, v)` returns and `Get(k)` then yields `(v, true)`. -/
theorem Set_Get_of_container [Inhabited V] (h : Heap K V) (m : Map K V) (r : Nat) (key : K)
    (value : V) (hm : m.m = some r) :
    ∃ h1, m.Set h key value = .ok h1 ∧ m.Get h1 key = (value, true) := by
  refine ⟨h.put r ((h.cells r).insert key value), ?_, ?_⟩
  · simp [Map.Set, mapassign, hm]
  · simp [Map.Get, mapaccess2, hm, AList.lookup_insert]

theorem foldl_append_singleton {α β : Type} (f : α → β) (l : List α) (init : List β) :
    l.foldl (fun acc x => acc ++ [f x]) init = init ++ l.map f := by
  induction l generalizing init with
  | nil => simp
  | cons x l ih => simp [ih]

omit [DecidableEq K] in
theorem Keys_eq (it : IterOrder K V) (h : Heap K V) (m : Map K V) :
    m.Keys it h = (it.order (h.table m.m).entries).map (fun e => e.1) := by
  unfold Map.Keys mapiter
  rw [foldl_append_singleton (fun kv : K × V => kv.1)]
  simp [List.map_map, Function.comp_def]

omit [DecidableEq K] in
theorem Values_eq (it : IterOrder K V) (h : Heap K V) (m : Map K V) :
    m.Values it h = (it.order (h.table m.m).entries).map (fun e => e.2) := by
  unfold Map.Values mapiter
  rw [foldl_append_singleton (fun kv : K × V => kv.2)]
  simp [List.map_map, Function.comp_def]

omit [DecidableEq K] in
theorem Keys_perm (it : IterOrder K V) (h : Heap K V) (m : Map K V) :
    List.Perm (m.Keys it h) (h.table m.m).keys := by
  rw [Keys_eq]
  exact (it.perm _).map _

/-- An entry of the container is what `Get` returns for its key. -/
theorem Get_of_mem_entries [Inhabited V] (h : Heap K V) (m : Map K V)
    (e : Sigma fun _ : K => V) (he : e ∈ (h.table m.m).entries) : m.Get h e.1 = (e.2, true) := by
  have hl : (h.table m.m).lookup e.1 = some e.2 := by
    have := (AList.mem_lookup_iff (s := h.table m.m) (a := e.1) (b := e.2)).2 he
    exact this
  simp [Map.Get, mapaccess2, hl]

theorem Get_found_iff_mem [Inhabited V] (h : Heap K V) (m : Map K V) (k : K) :
    (m.Get h k).2 = true ↔ k ∈ (h.table m.m).keys := by
  rw [← AList.mem_keys, ← AList.lookup_isSome]
  unfold Map.Get mapaccess2
  cases (h.table m.m).lookup k <;> simp

omit [DecidableEq K] in
theorem Table.length_eq_keys (t : Table K V) : t.entries.length = t.keys.length := by
  simp [AList.keys, List.keys]

theorem Table.length_insert (t : Table K V) (k : K) (v : V) :
    (t.insert k v).entries.length = if k ∈ t then t.entries.length else t.entries.length + 1 := by
  rw [Table.length_eq_keys, Table.length_eq_keys, AList.keys_insert]
  by_cases hk : k ∈ t
  · have hk2 : k ∈ t.keys := AList.mem_keys.1 hk
    rw [if_pos hk, List.length_cons, List.length_erase_of_mem hk2]
    have : 0 < t.keys.length := List.length_pos_of_mem hk2
    omega
  · have hk2 : k ∉ t.keys := fun hin => hk (AList.mem_keys.2 hin)
    rw [if_neg hk, List.length_cons, List.erase_of_not_mem hk2]

theorem Table.length_erase (t : Table K V) (k : K) :
    (t.erase k).entries.length = if k ∈ t then t.entries.length - 1 else t.entries.length := by
  rw [Table.length_eq_keys, Table.length_eq_keys, AList.keys_erase]
  by_cases hk : k ∈ t
  · rw [if_pos hk, List.length_erase_of_mem (AList.mem_keys.1 hk)]
  · have hk2 : k ∉ t.keys := fun hin => hk (AList.mem_keys.2 hin)
    rw [if_neg hk, List.erase_of_not_mem hk2]

theorem Get_found_iff [Inhabited V] (h : Heap K V) (m : Map K V) (k : K) :
    (m.Get h k).2 = true ↔ k ∈ h.table m.m := by
  rw [Get_found_iff_mem, AList.mem_keys]

/-- On a non-nil container `Set` returns; `Len` grows by one when the key was absent
and stays when it was present. -/
theorem Len_Set_of_container [Inhabited V] (h : Heap K V) (m : Map K V) (r : Nat) (key : K)
    (value : V) (hm : m.m = some r) :
    ∃ h1, m.Set h key value = .ok h1 ∧
      m.Len h1 = if (m.Get h key).2 = true then m.Len h else m.Len h + 1 := by
  refine ⟨h.put r ((h.cells r).insert key value), by simp [Map.Set, mapassign, hm], ?_⟩
  have hg := Get_found_iff h m key
  simp only [Map.Len, maplen, hm, Heap.table_some, Heap.put_cells, if_true] at hg ⊢
  rw [Table.length_insert]
  by_cases hk : key ∈ h.cells r
  · rw [if_pos hk, if_pos (hg.2 hk)]
  · rw [if_neg hk, if_neg (fun hc => hk (hg.1 hc))]

/-- Method `Delete` lowers `Len` by one when the key was present and keeps it otherwise. -/
theorem Len_Delete [Inhabited V] (h : Heap K V) (m : Map K V) (key : K) :
    m.Len (m.Delete h key) = if (m.Get h key).2 = true then m.Len h - 1 else m.Len h := by
  have hg := Get_found_iff h m key
  cases hm : m.m with
  | none => simp [Map.Len, Map.Delete, mapdelete, maplen, hm]
  | some r =>
    simp only [Map.Len, Map.Delete, mapdelete, maplen, hm, Heap.table_some, Heap.put_cells,
      if_true] at hg ⊢
    rw [Table.length_erase]
    by_cases hk : key ∈ h.cells r
    · rw [if_pos hk, if_pos (hg.2 hk)]
    · rw [if_neg hk, if_neg (fun hc => hk (hg.1 hc))]

omit [DecidableEq K] in
/-- A map made by `New` has `Len` 0. -/
theorem Len_New (h : Heap K V) : (New h).2.Len (New h).1 = 0 := by
  simp [New, Map.Len, maplen]

omit [DecidableEq K] in
/-- On a non-nil container without entries `MarshalJSON` is the codec's encoding of
the empty object. -/
theorem MarshalJSON_of_empty_container (codec : Codec K V) (h : Heap K V) (m : Map K V)
    (r : Nat) (hm : m.m = some r) (h0 : m.Len h = 0) :
    m.MarshalJSON codec h = codec.marshal (some []) := by
  have hnil : (h.cells r).entries = [] := by
    apply List.eq_nil_of_length_eq_zero
    simpa [Map.Len, maplen, hm] using h0
  simp [Map.MarshalJSON, jsonMarshal, Heap.view, hm, hnil]

theorem Get_afterCall_Set_ne [Inhabited V] (h : Heap K V) (m : Map K V) (k k1 : K) (v : V)
    (hne : k1 ≠ k) : m.Get (afterCall h (m.Set h k v)) k1 = m.Get h k1 := by
  cases hm : m.m with
  | none => simp [Map.Get, Map.Set, mapassign, afterCall, hm]
  | some r =>
    simp [Map.Get, Map.Set, mapassign, afterCall, mapaccess2, hm, AList.lookup_insert_ne hne]

theorem Get_Delete_ne [Inhabited V] (h : Heap K V) (m : Map K V) (k k1 : K)
    (hne : k1 ≠ k) : m.Get (m.Delete h k) k1 = m.Get h k1 := by
  cases hm : m.m with
  | none => simp [Map.Get, Map.Delete, mapdelete, hm]
  | some r =>
    simp [Map.Get, Map.Delete, mapdelete, mapaccess2, hm, AList.lookup_erase_ne hne]

/-- Calls that avoid `k` keep the struct and what `Get(k)` returns. -/
theorem foldl_step_avoids [Inhabited V] (codec : Codec K V) (k : K) (calls : List (Call K V))
    (s : Heap K V × Map K V) (hav : ∀ c ∈ calls, c.avoids k) :
    (calls.foldl (step codec) s).2 = s.2 ∧
    (calls.foldl (step codec) s).2.Get (calls.foldl (step codec) s).1 k = s.2.Get s.1 k := by
  induction calls generalizing s with
  | nil => exact ⟨rfl, rfl⟩
  | cons c l ih =>
    have hc : c.avoids k := hav c (List.mem_cons_self _ _)
    have hl : ∀ c1 ∈ l, c1.avoids k := fun c1 h1 => hav c1 (List.mem_cons_of_mem _ h1)
    obtain ⟨i1, i2⟩ := ih (step codec s c) hl
    have hstep : (step codec s c).2 = s.2 ∧
        (step codec s c).2.Get (step codec s c).1 k = s.2.Get s.1 k := by
      cases c with
      | set key value =>
        exact ⟨rfl, Get_afterCall_Set_ne s.1 s.2 key k value (fun e => hc e.symm)⟩
      | delete key => exact ⟨rfl, Get_Delete_ne s.1 s.2 key k (fun e => hc e.symm)⟩
      | clear => exact absurd hc id
      | deserialize data => exact absurd hc id
    rw [List.foldl_cons]
    exact ⟨i1.trans hstep.1, i2.trans hstep.2⟩

/-! ### Lemmas on the mutex layer -/

theorem replay_reads_runlock (n : Nat) :
    replay .shared (List.replicate n Event.read ++ [Event.runlock]) = some .unlocked := by
  induction n with
  | zero => rfl
  | succ n ih => simpa [List.replicate_succ, replay, LockState.after] using ih

theorem replay_body_unlock (body : List Event)
    (hb : ∀ e ∈ body, e = Event.read ∨ e = Event.write) :
    replay .exclusive (body ++ [Event.unlock]) = some .unlocked := by
  induction body with
  | nil => rfl
  | cons e t ih =>
    have ht : ∀ x ∈ t, x = Event.read ∨ x = Event.write :=
      fun x hx => hb x (List.mem_cons_of_mem _ hx)
    rcases hb e (List.mem_cons_self _ _) with he | he <;> subst he <;>
      simpa [replay, LockState.after] using ih ht

/-- Events of a call that holds the mutex in one mode around its accesses replay from
the unlocked state without a forbidden step and end in the unlocked state. -/
theorem replay_of_HeldIn (mode : LockState) (t : List Event) (ht : HeldIn mode t) :
    replay .unlocked t = some .unlocked := by
  cases mode with
  | unlocked =>
    have : t = [] := ht
    subst this
    rfl
  | shared =>
    obtain ⟨n, hn⟩ := ht
    subst hn
    simpa [replay, LockState.after] using replay_reads_runlock n
  | exclusive =>
    obtain ⟨body, hb, hall⟩ := ht
    subst hb
    simpa [replay, LockState.after] using replay_body_unlock body hall

omit [DecidableEq K] in
theorem ranging_events {α : Type} (l : List α) :
    (ranging l).events = List.replicate (l.length + 1) Event.read := by
  simp [ranging, List.replicate_succ, List.map_const']

theorem jsonUnmarshal_err (codec : Codec K V) (h : Heap K V) (v : GoMap) (data : Bytes) :
    (jsonUnmarshal codec h v data).2.2 = (codec.unmarshal data).err := by
  cases hs : (codec.unmarshal data).stores <;> simp [jsonUnmarshal, hs]

/-- Each method with its mutex operations returns what the method body returns. -/
theorem Locked_value [Inhabited K] [Inhabited V] (codec : Codec K V) (it : IterOrder K V)
    (h : Heap K V) (m : Map K V) (key : K) (value : V) (data : Bytes) :
    (Locked.Get h m key).value = m.Get h key ∧
    (Locked.Set h m key value).value = m.Set h key value ∧
    (Locked.All it h m).value = m.All it h ∧
    (Locked.Delete h m key).value = m.Delete h key ∧
    (Locked.Clear h m).value = m.Clear h ∧
    (Locked.Len h m).value = m.Len h ∧
    (Locked.Random it h m).value = m.Random it h ∧
    (Locked.Keys it h m).value = m.Keys it h ∧
    (Locked.Values it h m).value = m.Values it h ∧
    (Locked.MarshalJSON codec h m).value = m.MarshalJSON codec h ∧
    (Locked.UnmarshalJSON codec h m data).value = m.UnmarshalJSON codec h data ∧
    (Locked.MarshalText codec h m).value = m.MarshalText codec h ∧
    (Locked.UnmarshalText codec h m data).value = m.UnmarshalText codec h data := by
  have hrandom : (Locked.Random it h m).value = m.Random it h := by
    unfold Locked.Random Map.Random
    cases hl : mapiter it h m.m with
    | nil => rfl
    | cons kv l => rfl
  have hun : (Locked.UnmarshalJSON codec h m data).value = m.UnmarshalJSON codec h data := by
    cases hd : (jsonUnmarshal codec (makemap h 0).1 (some (makemap h 0).2) data).2.2 with
    | none => simp only [Locked.UnmarshalJSON, Map.UnmarshalJSON, hd]; rfl
    | some e => simp only [Locked.UnmarshalJSON, Map.UnmarshalJSON, hd]; rfl
  exact ⟨rfl, rfl, rfl, rfl, rfl, rfl, hrandom, rfl, rfl, rfl, hun, rfl, hun⟩

theorem HeldIn_shared_of_ranging {α : Type} (l : List α) (pre : Nat) :
    HeldIn .shared (Event.rlock :: (List.replicate pre Event.read ++
      ((ranging l).events ++ [Event.runlock]))) := by
  refine ⟨pre + (l.length + 1), ?_⟩
  rw [ranging_events]
  simp only [List.replicate_add, List.cons_append, List.append_assoc]

theorem UnmarshalJSON_events (codec : Codec K V) (h : Heap K V) (m : Map K V) (data : Bytes) :
    (Locked.UnmarshalJSON codec h m data).events
      = if (codec.unmarshal data).err.isSome then []
        else [Event.lock, Event.write, Event.unlock] := by
  have he := jsonUnmarshal_err codec (makemap h 0).1 (some (makemap h 0).2) data
  cases hd : (jsonUnmarshal codec (makemap h 0).1 (some (makemap h 0).2) data).2.2 with
  | none =>
    rw [hd] at he
    simp only [Locked.UnmarshalJSON, hd, ← he]
    rfl
  | some e =>
    rw [hd] at he
    simp only [Locked.UnmarshalJSON, hd, ← he]
    rfl

/-! ### The codec `goJSONUint` decodes what it encodes -/

theorem digitChar_facts (m : Nat) (hm : m < 10) :
    (Nat.digitChar m).isDigit = true ∧ (Nat.digitChar m).toNat - 48 = m ∧
    (Nat.digitChar m = '0' → m = 0) := by
  interval_cases m <;> decide

/-- Shape of the decimal text produced by the digit loop. -/
theorem toDigitsCore_shape (fuel : Nat) : ∀ (n : Nat) (ds : List Char), n < fuel →
    ∃ pre : List Char, Nat.toDigitsCore 10 fuel n ds = pre ++ ds ∧
      pre.all Char.isDigit = true ∧
      pre.foldl (fun acc c => 10 * acc + (c.toNat - 48)) 0 = n ∧
      (n = 0 → pre = ['0']) ∧
      (n ≠ 0 → ∃ c t, pre = c :: t ∧ c ≠ '0') := by
  induction fuel with
  | zero => intro n ds hn; omega
  | succ fuel ih =>
    intro n ds hn
    obtain ⟨hd1, hd2, hd3⟩ := digitChar_facts (n % 10) (Nat.mod_lt _ (by decide))
    by_cases h0 : n / 10 = 0
    · have hlt : n < 10 := by omega
      have hmod : n % 10 = n := Nat.mod_eq_of_lt hlt
      refine ⟨[Nat.digitChar (n % 10)], by simp [Nat.toDigitsCore, h0], by simp [hd1], ?_, ?_, ?_⟩
      · simp only [List.foldl_cons, List.foldl_nil]
        omega
      · intro hn0; subst hn0; rfl
      · intro hn0
        exact ⟨_, [], rfl, fun hc => hn0 (by have := hd3 hc; omega)⟩
    · have hlt : n / 10 < fuel := by omega
      obtain ⟨pre, hp1, hp2, hp3, _, hp5⟩ := ih (n / 10) (Nat.digitChar (n % 10) :: ds) hlt
      refine ⟨pre ++ [Nat.digitChar (n % 10)], by simp [Nat.toDigitsCore, h0, hp1],
        by simp [hp2, hd1], ?_, ?_, ?_⟩
      · rw [List.foldl_append, hp3]
        simp only [List.foldl_cons, List.foldl_nil, hd2]
        omega
      · intro hn0; subst hn0; simp at h0
      · intro _
        obtain ⟨c, t, hct, hc⟩ := hp5 h0
        exact ⟨c, t ++ [Nat.digitChar (n % 10)], by simp [hct], hc⟩

theorem formatUint_shape (n : Nat) :
    (formatUint n).all Char.isDigit = true ∧
    (formatUint n).foldl (fun acc c => 10 * acc + (c.toNat - 48)) 0 = n ∧
    (n = 0 → formatUint n = ['0']) ∧
    (n ≠ 0 → ∃ c t, formatUint n = c :: t ∧ c ≠ '0') := by
  obtain ⟨pre, h1, h2, h3, h4, h5⟩ := toDigitsCore_shape (n + 1) n [] (Nat.lt_succ_self n)
  have : formatUint n = pre := by simpa [formatUint, Nat.toDigits] using h1
  rw [this]
  exact ⟨h2, h3, h4, h5⟩

theorem formatUint_ne_nil (n : Nat) : formatUint n ≠ [] := by
  obtain ⟨_, _, h3, h4⟩ := formatUint_shape n
  by_cases hn : n = 0
  · rw [h3 hn]; simp
  · obtain ⟨c, t, hct, _⟩ := h4 hn
    rw [hct]; simp

theorem parseUint_formatUint (n : Nat) (hn : n < 2 ^ 64) : parseUint (formatUint n) = some n := by
  obtain ⟨h1, h2, _, _⟩ := formatUint_shape n
  have hn2 : n < 18446744073709551616 := by simpa using hn
  unfold parseUint
  simp [formatUint_ne_nil, h1, h2, hn2]

theorem parseNumber_formatUint (n : Nat) (hn : n < 2 ^ 64) :
    parseNumber (formatUint n) = some n := by
  obtain ⟨_, _, h3, h4⟩ := formatUint_shape n
  by_cases h0 : n = 0
  · subst h0; rw [h3 rfl]; rfl
  · obtain ⟨c, t, hct, hc⟩ := h4 h0
    have hp := parseUint_formatUint n hn
    rw [hct] at hp ⊢
    unfold parseNumber
    split
    · rename_i heq
      injection heq with e1 e2
      exact absurd e1 hc
    · exact hp

theorem dropWhile_digits_append (ds rest : Bytes) (c : Char) (hds : ds.all Char.isDigit = true)
    (hc : c.isDigit = false) :
    (ds ++ c :: rest).dropWhile Char.isDigit = c :: rest ∧
    (ds ++ c :: rest).takeWhile Char.isDigit = ds := by
  induction ds with
  | nil => simp [List.dropWhile, List.takeWhile, hc]
  | cons x t ih =>
    simp only [List.all_cons, Bool.and_eq_true] at hds
    obtain ⟨i1, i2⟩ := ih hds.2
    simp [List.dropWhile, List.takeWhile, hds.1, i1, i2]

theorem parseMember_memberText (e : Nat × Nat) (h1 : e.1 < 2 ^ 64) (h2 : e.2 < 2 ^ 64) :
    parseMember parseNumber (memberText e) = some e := by
  obtain ⟨hd, _⟩ := formatUint_shape e.1
  obtain ⟨i1, i2⟩ := dropWhile_digits_append (formatUint e.1) (':' :: formatUint e.2) '"' hd
    (by decide)
  simp only [memberText, List.cons_append, parseMember, i1, i2, parseUint_formatUint e.1 h1,
    parseNumber_formatUint e.2 h2]

theorem comma_not_mem_memberText (e : Nat × Nat) : ',' ∉ memberText e := by
  have hdig : ∀ n, ',' ∉ formatUint n := by
    intro n hin
    have := (formatUint_shape n).1
    rw [List.all_eq_true] at this
    exact absurd (this _ hin) (by decide)
  simp [memberText, hdig]

theorem splitComma_ne_nil (s : Bytes) : splitComma s ≠ [] := by
  induction s with
  | nil => simp [splitComma]
  | cons c cs ih =>
    unfold splitComma
    cases hs : splitComma cs with
    | nil => simp
    | cons p ps => by_cases hc : c = ',' <;> simp [hc]

theorem splitComma_comma (rest : Bytes) : splitComma (',' :: rest) = [] :: splitComma rest := by
  rw [splitComma]
  cases hs : splitComma rest with
  | nil => exact absurd hs (splitComma_ne_nil rest)
  | cons p ps => simp

theorem splitComma_other (c : Char) (cs p : Bytes) (ps : List Bytes) (hc : c ≠ ',')
    (hs : splitComma cs = p :: ps) : splitComma (c :: cs) = (c :: p) :: ps := by
  rw [splitComma, hs]
  simp [hc]

theorem splitComma_piece (t : Bytes) (ht : ',' ∉ t) :
    splitComma t = [t] ∧ ∀ rest, splitComma (t ++ ',' :: rest) = t :: splitComma rest := by
  induction t with
  | nil => exact ⟨rfl, fun rest => splitComma_comma rest⟩
  | cons c cs ih =>
    have hc : c ≠ ',' := fun e => ht (e ▸ List.mem_cons_self _ _)
    have hcs : ',' ∉ cs := fun hin => ht (List.mem_cons_of_mem _ hin)
    obtain ⟨i1, i2⟩ := ih hcs
    exact ⟨splitComma_other c cs cs [] hc i1,
      fun rest => splitComma_other c (cs ++ ',' :: rest) cs (splitComma rest) hc (i2 rest)⟩

theorem insertMember_perm (e : Nat × Nat) (l : List (Nat × Nat)) :
    List.Perm (insertMember e l) (e :: l) := by
  induction l with
  | nil => exact List.Perm.refl _
  | cons x xs ih =>
    unfold insertMember
    split
    · exact List.Perm.refl _
    · exact (List.Perm.cons x ih).trans (List.Perm.swap e x xs)

theorem sortMembers_perm (l : List (Nat × Nat)) : List.Perm (l.foldr insertMember []) l := by
  induction l with
  | nil => exact List.Perm.refl _
  | cons e l ih => exact (insertMember_perm e _).trans (List.Perm.cons e ih)

theorem mapM_parse_joinMembers (l : List (Nat × Nat)) (hne : l ≠ [])
    (hb : ∀ e ∈ l, e.1 < 2 ^ 64 ∧ e.2 < 2 ^ 64) :
    (splitComma (joinMembers formatUint l)).mapM (parseMember parseNumber) = some l := by
  induction l with
  | nil => exact absurd rfl hne
  | cons e t ih =>
    have he := hb e (List.mem_cons_self _ _)
    have hp := parseMember_memberText e he.1 he.2
    obtain ⟨s1, s2⟩ := splitComma_piece (memberText e) (comma_not_mem_memberText e)
    cases t with
    | nil =>
      have hj : joinMembers formatUint [e] = memberText e := rfl
      rw [hj, s1, List.mapM_cons, hp, List.mapM_nil]
      rfl
    | cons e2 es =>
      have hj : joinMembers formatUint (e :: e2 :: es)
          = memberText e ++ ',' :: joinMembers formatUint (e2 :: es) := rfl
      have ih2 := ih (by simp) (fun x hx => hb x (List.mem_cons_of_mem _ hx))
      rw [hj, s2, List.mapM_cons, hp, ih2]
      rfl

theorem joinMembers_ne_nil (l : List (Nat × Nat)) (hne : l ≠ []) :
    joinMembers formatUint l ≠ [] := by
  cases l with
  | nil => exact absurd rfl hne
  | cons e t =>
    cases t with
    | nil => simp [joinMembers]
    | cons e2 es => simp [joinMembers]

/-- Decoding the object text of members within 64 bits gives the members back. -/
theorem unmarshal_object_text (l : List (Nat × Nat))
    (hb : ∀ e ∈ l, e.1 < 2 ^ 64 ∧ e.2 < 2 ^ 64) :
    (goJSON.unmarshal (Char.ofNat 123 :: joinMembers formatUint l ++ [Char.ofNat 125])).err
      = none ∧
    (goJSON.unmarshal (Char.ofNat 123 :: joinMembers formatUint l ++ [Char.ofNat 125])).stores
      = .object l := by
  have hhead : (Char.ofNat 123 :: (joinMembers formatUint l ++ [Char.ofNat 125]))
      ≠ ['n', 'u', 'l', 'l'] := by
    intro h
    injection h with h1 _
    exact absurd h1 (by decide)
  by_cases hl : l = []
  · subst hl
    exact ⟨rfl, rfl⟩
  · have hj := joinMembers_ne_nil l hl
    have hm := mapM_parse_joinMembers l hl hb
    simp only [goJSON, objectCodec, List.cons_append, hhead, if_false, true_and,
      List.getLast?_concat, List.dropLast_concat, if_true, hj, hm]

/-- The codec `goJSONUint` decodes every document it produces back to the pairs it
encoded, and `null` back to the nil map. -/
theorem goJSONUint_decodes_what_it_encodes (x : Option (List (Nat × Nat))) (d : Bytes)
    (hd : goJSONUint.marshal x = .ok d) : goJSONUint.DecodesTo d x := by
  cases x with
  | none =>
    have : d = ['n', 'u', 'l', 'l'] := by
      have h2 : (Except.ok ['n', 'u', 'l', 'l'] : Except String Bytes) = .ok d := hd
      injection h2 with h2
      exact h2.symm
    subst this
    exact ⟨rfl, trivial⟩
  | some es =>
    by_cases hall : es.all (fun e => decide (e.1 < 2 ^ 64) && decide (e.2 < 2 ^ 64)) = true
    · have hb : ∀ e ∈ es.foldr insertMember [], e.1 < 2 ^ 64 ∧ e.2 < 2 ^ 64 := by
        intro e he
        have he2 : e ∈ es := (sortMembers_perm es).subset he
        have := List.all_eq_true.1 hall e he2
        simpa using this
      have hd2 : (Except.ok (Char.ofNat 123 ::
          joinMembers formatUint (es.foldr insertMember []) ++ [Char.ofNat 125])
            : Except String Bytes) = .ok d := by
        have : goJSONUint.marshal (some es) = goJSON.marshal (some es) := by
          simp only [goJSONUint, hall, if_true]
        rw [this] at hd
        exact hd
      injection hd2 with hd2
      subst hd2
      obtain ⟨u1, u2⟩ := unmarshal_object_text (es.foldr insertMember []) hb
      have u3 : (goJSONUint.unmarshal (Char.ofNat 123 ::
          joinMembers formatUint (es.foldr insertMember []) ++ [Char.ofNat 125])).stores
            = .object (es.foldr insertMember []) := u2
      refine ⟨u1, ?_⟩
      rw [u3]
      exact sortMembers_perm es
    · have : goJSONUint.marshal (some es) = .error "json: number out of range for uint" := by
        simp only [goJSONUint, hall]
        rfl
      rw [this] at hd
      exact absurd hd (by simp)

end Lemmas

/-! ## Claims -/

section Claims

variable {K V : Type} [DecidableEq K]

/-- C1 fails on the code. In the state left by `New()` and a successful
`UnmarshalJSON("null")` the container is nil: `Set(1, 1)` panics with an assignment
to a nil map, and `Get(1)` afterwards reports the key as absent instead of returning
`(1, true)`. -/
theorem Set_Get_after_null_document :
    afterNullDocument.2.2 = none ∧
    afterNullDocument.2.1.Set afterNullDocument.1 1 1 = .error .assignToNilMap ∧
    afterNullDocument.2.1.Get
      (afterCall afterNullDocument.1 (afterNullDocument.2.1.Set afterNullDocument.1 1 1)) 1
      = (0, false) :=
  ⟨rfl, rfl, rfl⟩

/-- C2. When decoding `data` reports an error, `UnmarshalJSON` returns that error,
leaves the struct and the contents of its container as they were, and `Get` and the
container returned by `All` are the same before and after the call. -/
theorem UnmarshalJSON_error_keeps_contents [Inhabited V] (codec : Codec K V)
    (it : IterOrder K V) (h : Heap K V) (m : Map K V) (data : Bytes) (e : String)
    (ha : m.Allocated h) (herr : (codec.unmarshal data).err = some e) :
    (m.UnmarshalJSON codec h data).2.2 = some e ∧
    (m.UnmarshalJSON codec h data).2.1 = m ∧
    (m.UnmarshalJSON codec h data).1.table m.m = h.table m.m ∧
    (∀ key, (m.UnmarshalJSON codec h data).2.1.Get (m.UnmarshalJSON codec h data).1 key
      = m.Get h key) ∧
    (m.UnmarshalJSON codec h data).2.1.snapshot it (m.UnmarshalJSON codec h data).1
      = m.snapshot it h := by
  have hshape : (m.UnmarshalJSON codec h data).2.2 = some e ∧
      (m.UnmarshalJSON codec h data).2.1 = m ∧
      (m.UnmarshalJSON codec h data).1.table m.m = h.table m.m ∧
      h.next < (m.UnmarshalJSON codec h data).1.next := by
    cases hs : (codec.unmarshal data).stores with
    | untouched =>
      simp [Map.UnmarshalJSON, jsonUnmarshal, hs, herr, table_makemap h m 0 ha]
    | null =>
      simp [Map.UnmarshalJSON, jsonUnmarshal, hs, herr, table_makemap h m 0 ha]
    | object members =>
      simp only [Map.UnmarshalJSON, jsonUnmarshal, hs, herr, makemap_addr]
      rw [foldl_put_insert]
      refine ⟨trivial, trivial, ?_, by simp⟩
      cases hm : m.m with
      | none => rfl
      | some r =>
        have hr : r ≠ h.next := Nat.ne_of_lt (ha.lt r hm)
        simp [hr]
  obtain ⟨h1, h2, h3, h4⟩ := hshape
  have ha2 : Map.Allocated (m.UnmarshalJSON codec h data).1 m := by
    unfold Map.Allocated
    cases hm : m.m with
    | none => trivial
    | some r => exact Nat.lt_trans (ha.lt r hm) h4
  refine ⟨h1, h2, h3, ?_, ?_⟩
  · intro key
    rw [h2]
    simp [Map.Get, mapaccess2, h3]
  · rw [h2, snapshot_eq it _ m ha2, snapshot_eq it h m ha]
    unfold mapiter
    rw [h3]

theorem UnmarshalJSON_error_keeps_contents_witness :
    oneEntry.2.Allocated oneEntry.1 ∧
    (goJSON.unmarshal [Char.ofNat 123]).err = some "json: cannot decode document" ∧
    (oneEntry.2.UnmarshalJSON goJSON oneEntry.1 [Char.ofNat 123]).2.1 = oneEntry.2 ∧
    (oneEntry.2.UnmarshalJSON goJSON oneEntry.1 [Char.ofNat 123]).2.1.snapshot
        (storedOrder Nat Nat) (oneEntry.2.UnmarshalJSON goJSON oneEntry.1 [Char.ofNat 123]).1
      = oneEntry.2.snapshot (storedOrder Nat Nat) oneEntry.1 :=
  ⟨by decide, rfl,
    (UnmarshalJSON_error_keeps_contents goJSON (storedOrder Nat Nat) oneEntry.1 oneEntry.2
      [Char.ofNat 123] "json: cannot decode document" (by decide) rfl).2.1,
    (UnmarshalJSON_error_keeps_contents goJSON (storedOrder Nat Nat) oneEntry.1 oneEntry.2
      [Char.ofNat 123] "json: cannot decode document" (by decide) rfl).2.2.2.2⟩

/-- C3 as stated fails. On a `Map[uint, S]` whose value type has an unexported field,
holding the pair `(1, S{a: 7})`, `MarshalJSON` succeeds with the object that maps
`"1"` to the empty object, and the round trip through that document does not give
back the original pairs: the fresh instance holds `(1, S{a: 0})`. -/
theorem roundtrip_drops_unexported_field :
    sevenEntry.2.MarshalJSON goJSONUnexported sevenEntry.1
      = .ok [Char.ofNat 123, '"', '1', '"', ':', Char.ofNat 123, Char.ofNat 125,
          Char.ofNat 125] ∧
    ¬ RoundTrip goJSONUnexported (storedOrder Nat Nat) (storedOrder Nat Nat) sevenEntry.1
      sevenEntry.2 [Char.ofNat 123, '"', '1', '"', ':', Char.ofNat 123, Char.ofNat 125,
        Char.ofNat 125] := by
  refine ⟨rfl, ?_⟩
  rintro ⟨_, t1, t2, h1, h2, hmem⟩
  have e1 : Except.ok (AList.insert 1 0 (∅ : Table Nat Nat)) = Except.ok t1 :=
    Eq.trans rfl h1
  have e2 : Except.ok (AList.insert 1 7 (∅ : Table Nat Nat)) = Except.ok t2 :=
    Eq.trans rfl h2
  injection e1 with e1
  injection e2 with e2
  subst e1
  subst e2
  have hin : (⟨1, 7⟩ : Sigma fun _ : Nat => Nat)
      ∈ (AList.insert 1 0 (∅ : Table Nat Nat)).entries := (hmem ⟨1, 7⟩).2 (by decide)
  revert hin
  decide

/-- C3, amended. With a codec that decodes every document it produces back to the
pairs it encoded (and `null` back to the nil map): if `MarshalJSON` succeeds with
output `d`, then `UnmarshalJSON(d)` on an instance made by `New` succeeds and the
container its `All` returns holds exactly the pairs of the container the original
map's `All` returns, whatever the two iteration orders. -/
theorem Serialize_Deserialize_roundtrip (codec : Codec K V) (it1 it2 : IterOrder K V)
    (h : Heap K V) (m : Map K V) (d : Bytes) (ha : m.Allocated h)
    (hcontract : ∀ x doc, codec.marshal x = .ok doc → codec.DecodesTo doc x)
    (hser : m.MarshalJSON codec h = .ok d) :
    RoundTrip codec it1 it2 h m d := by
  have hdec : codec.DecodesTo d (h.view m.m) := hcontract (h.view m.m) d hser
  obtain ⟨hok, hst⟩ := hdec
  obtain ⟨h1, h2, h3⟩ := UnmarshalJSON_ok codec (New h).1 (New h).2 d hok
  refine ⟨h1, _, _, snapshot_eq it1 _ _ h3, snapshot_eq it2 h m ha, ?_⟩
  have hp1 := assignAll_perm it1
    (((New h).2.UnmarshalJSON codec (New h).1 d).1.table
      ((New h).2.UnmarshalJSON codec (New h).1 d).2.1.m)
  have hp2 := assignAll_perm it2 (h.table m.m)
  have hmid : List.Perm (codec.unmarshal d).stores.table.entries (h.table m.m).entries := by
    cases hm : m.m with
    | none =>
      rw [hm] at hst
      cases hs : (codec.unmarshal d).stores with
      | untouched => rw [hs] at hst; exact absurd hst id
      | null => exact List.Perm.refl _
      | object members => rw [hs] at hst; exact absurd hst id
    | some r =>
      rw [hm] at hst
      cases hs : (codec.unmarshal d).stores with
      | untouched => rw [hs] at hst; exact absurd hst id
      | null => rw [hs] at hst; exact absurd hst id
      | object members =>
        rw [hs] at hst
        exact assignAll_perm_of_perm members (h.cells r) hst
  rw [h2] at hp1
  intro e
  unfold mapiter
  rw [h2]
  exact (hp1.trans (hmid.trans hp2.symm)).mem_iff

theorem Serialize_Deserialize_roundtrip_witness :
    oneEntry.2.Allocated oneEntry.1 ∧
    oneEntry.2.MarshalJSON goJSONUint oneEntry.1
      = .ok [Char.ofNat 123, '"', '1', '"', ':', '1', Char.ofNat 125] ∧
    RoundTrip goJSONUint (storedOrder Nat Nat) (reversedOrder Nat Nat) oneEntry.1 oneEntry.2
      [Char.ofNat 123, '"', '1', '"', ':', '1', Char.ofNat 125] :=
  ⟨by decide, rfl,
    Serialize_Deserialize_roundtrip goJSONUint (storedOrder Nat Nat) (reversedOrder Nat Nat)
      oneEntry.1 oneEntry.2 [Char.ofNat 123, '"', '1', '"', ':', '1', Char.ofNat 125]
      (by decide) goJSONUint_decodes_what_it_encodes rfl⟩

/-- C4. When `data` decodes without error, `UnmarshalJSON` succeeds and afterwards
`Get(k)` is `(v, true)` for every pair `(k, v)` of the decoded document and not found
for every other key, whatever the heap and the struct were before the call. -/
theorem UnmarshalJSON_replaces_contents [Inhabited V] (codec : Codec K V) (h : Heap K V)
    (m : Map K V) (data : Bytes) (hok : (codec.unmarshal data).err = none) :
    (m.UnmarshalJSON codec h data).2.2 = none ∧
    (∀ k v, (codec.unmarshal data).stores.binding k = some v →
      (m.UnmarshalJSON codec h data).2.1.Get (m.UnmarshalJSON codec h data).1 k = (v, true)) ∧
    (∀ k, (codec.unmarshal data).stores.binding k = none →
      (m.UnmarshalJSON codec h data).2.1.Get (m.UnmarshalJSON codec h data).1 k
        = (default, false)) := by
  obtain ⟨h1, h2, _⟩ := UnmarshalJSON_ok codec h m data hok
  refine ⟨h1, ?_, ?_⟩
  · intro k v hb
    simp [Map.Get, mapaccess2, h2, lookup_Decoded_table, hb]
  · intro k hb
    simp [Map.Get, mapaccess2, h2, lookup_Decoded_table, hb]

theorem UnmarshalJSON_replaces_contents_witness :
    (goJSON.unmarshal [Char.ofNat 123, '"', '2', '"', ':', '5',
      Char.ofNat 125]).err = none ∧
    (oneEntry.2.UnmarshalJSON goJSON oneEntry.1 [Char.ofNat 123, '"', '2',
      '"', ':', '5', Char.ofNat 125]).2.1.Get
      (oneEntry.2.UnmarshalJSON goJSON oneEntry.1 [Char.ofNat 123, '"', '2',
        '"', ':', '5', Char.ofNat 125]).1 2 = (5, true) ∧
    (oneEntry.2.UnmarshalJSON goJSON oneEntry.1 [Char.ofNat 123, '"', '2',
      '"', ':', '5', Char.ofNat 125]).2.1.Get
      (oneEntry.2.UnmarshalJSON goJSON oneEntry.1 [Char.ofNat 123, '"', '2',
        '"', ':', '5', Char.ofNat 125]).1 1 = (0, false) :=
  ⟨rfl,
    (UnmarshalJSON_replaces_contents goJSON oneEntry.1 oneEntry.2 [Char.ofNat 123,
      '"', '2', '"', ':', '5', Char.ofNat 125] rfl).2.1 2 5 rfl,
    (UnmarshalJSON_replaces_contents goJSON oneEntry.1 oneEntry.2 [Char.ofNat 123,
      '"', '2', '"', ':', '5', Char.ofNat 125] rfl).2.2 1 rfl⟩

/-- C5 fails on the code. After `New()`, `UnmarshalJSON("null")` returns no error and
leaves the container nil; `Len` still answers, but `Set(2, 3)` on that state panics with
an assignment to a nil map. -/
theorem Set_panics_after_successful_Deserialize :
    afterNullDocument.2.2 = none ∧
    afterNullDocument.2.1.m = none ∧
    afterNullDocument.2.1.Len afterNullDocument.1 = 0 ∧
    afterNullDocument.2.1.Set afterNullDocument.1 2 3 = .error .assignToNilMap :=
  ⟨rfl, rfl, rfl, rfl⟩

/-- C6. After `Delete(k)`, `Get(k)` returns the zero value and `false`, and `Get` of
every other key returns what it returned before. -/
theorem Delete_then_Get [Inhabited V] (h : Heap K V) (m : Map K V) (key : K) :
    m.Get (m.Delete h key) key = (default, false) ∧
    ∀ k, k ≠ key → m.Get (m.Delete h key) k = m.Get h k := by
  cases hm : m.m with
  | none => simp [Map.Get, Map.Delete, mapdelete, mapaccess2, hm]
  | some r =>
    refine ⟨?_, ?_⟩
    · simp [Map.Get, Map.Delete, mapdelete, mapaccess2, hm, AList.lookup_erase]
    · intro k hk
      simp [Map.Get, Map.Delete, mapdelete, mapaccess2, hm, AList.lookup_erase_ne hk]

theorem Delete_then_Get_witness :
    oneEntry.2.Get (oneEntry.2.Delete oneEntry.1 1) 1 = (0, false) ∧
    oneEntry.2.Get (oneEntry.2.Delete oneEntry.1 4) 1 = (1, true) :=
  ⟨(Delete_then_Get oneEntry.1 oneEntry.2 1).1,
    ((Delete_then_Get oneEntry.1 oneEntry.2 4).2 1 (by decide)).trans rfl⟩

/-- C7. `Delete(k)` of a key that `Get` does not find leaves the whole heap, hence the
contents, unchanged; and two `Delete(k)` in a row leave the same heap as one. -/
theorem Delete_absent_and_twice [Inhabited V] (h : Heap K V) (m : Map K V) (key : K) :
    ((m.Get h key).2 = false → m.Delete h key = h) ∧
    m.Delete (m.Delete h key) key = m.Delete h key := by
  cases hm : m.m with
  | none => simp [Map.Delete, mapdelete, hm]
  | some r =>
    refine ⟨?_, ?_⟩
    · intro hg
      have hl : (h.cells r).lookup key = none := by
        cases hl : (h.cells r).lookup key with
        | none => rfl
        | some v => simp [Map.Get, mapaccess2, hm, hl] at hg
      have hk : key ∉ h.cells r := AList.lookup_eq_none.1 hl
      simp [Map.Delete, mapdelete, hm, erase_of_not_mem _ key hk, Heap.put_self]
    · simp [Map.Delete, mapdelete, hm, erase_twice, Heap.put_put]

theorem Delete_absent_and_twice_witness :
    (oneEntry.2.Get oneEntry.1 4).2 = false ∧ oneEntry.2.Delete oneEntry.1 4 = oneEntry.1 :=
  ⟨rfl, (Delete_absent_and_twice oneEntry.1 oneEntry.2 4).1 rfl⟩

/-- C8. After `Clear()`, `Len()` is 0 and `Get(k)` returns the zero value and `false`
for every key `k`. -/
theorem Clear_empties [Inhabited V] (h : Heap K V) (m : Map K V) :
    (m.Clear h).2.Len (m.Clear h).1 = 0 ∧
    ∀ k, (m.Clear h).2.Get (m.Clear h).1 k = (default, false) := by
  refine ⟨?_, ?_⟩
  · simp [Map.Clear, Map.Len, maplen]
  · intro k
    simp [Map.Clear, Map.Get, mapaccess2]

/-- C9. On a map whose container is nil or allocated, `All` returns a container in
which a key maps to `v` exactly when `Get` of that key returns `(v, true)` (reading
any key from it gives what `Get` gives), and which has `Len()` entries. -/
theorem All_holds_current_pairs [Inhabited V] (it : IterOrder K V) (h : Heap K V)
    (m : Map K V) (ha : m.Allocated h) :
    ∃ h1 all, m.All it h = .ok (h1, all) ∧
      (∀ k v, mapaccess2 h1 all k = (v, true) ↔ m.Get h k = (v, true)) ∧
      (∀ k, mapaccess2 h1 all k = m.Get h k) ∧
      maplen h1 all = m.Len h := by
  refine ⟨_, _, All_eq it h m ha, ?_⟩
  have hk : ∀ k, mapaccess2 ((makemap h (maplen h m.m)).1.put h.next
      (assignAll (mapiter it h m.m))) (some h.next) k = m.Get h k := by
    intro k
    simp [mapaccess2, Map.Get, lookup_assignAll_mapiter]
  refine ⟨fun k v => by rw [hk k], hk, ?_⟩
  simp only [maplen, Map.Len, Heap.table_some, Heap.put_cells, if_true]
  exact (assignAll_perm it (h.table m.m)).length_eq

theorem All_holds_current_pairs_witness :
    oneEntry.2.Allocated oneEntry.1 ∧
    ∃ h1 all, oneEntry.2.All (reversedOrder Nat Nat) oneEntry.1 = .ok (h1, all) ∧
      mapaccess2 h1 all 1 = (1, true) ∧ maplen h1 all = 1 := by
  refine ⟨by decide, ?_⟩
  obtain ⟨h1, all, hall, _, hk, hlen⟩ :=
    All_holds_current_pairs (reversedOrder Nat Nat) oneEntry.1 oneEntry.2 (by decide)
  exact ⟨h1, all, hall, (hk 1).trans rfl, hlen.trans rfl⟩

/-- C10. The container returned by `All` is a separate object: assigning or deleting
any key in it leaves every `Get` and `Len` of the map as they were before `All`, and a
later `Set`, `Delete` or `Clear` on the map leaves the returned container as it was. -/
theorem All_copy_is_independent [Inhabited V] (it : IterOrder K V) (h : Heap K V)
    (m : Map K V) (ha : m.Allocated h) :
    ∃ h1 all, m.All it h = .ok (h1, all) ∧
      (∀ k v, ∃ h2, mapassign h1 all k v = .ok h2 ∧
        (∀ k1, m.Get h2 k1 = m.Get h k1) ∧ m.Len h2 = m.Len h) ∧
      (∀ k, (∀ k1, m.Get (mapdelete h1 all k) k1 = m.Get h k1) ∧
        m.Len (mapdelete h1 all k) = m.Len h) ∧
      (∀ k v, (afterCall h1 (m.Set h1 k v)).table all = h1.table all) ∧
      (∀ k, (m.Delete h1 k).table all = h1.table all) ∧
      (m.Clear h1).1.table all = h1.table all := by
  refine ⟨_, _, All_eq it h m ha, ?_⟩
  cases hm : m.m with
  | none =>
    simp [mapassign, mapdelete, Map.Get, Map.Len, Map.Set, Map.Delete, Map.Clear, mapaccess2,
      maplen, afterCall, hm]
  | some r =>
    have hr : r ≠ h.next := Nat.ne_of_lt (ha.lt r hm)
    have hr2 : h.next ≠ r := fun e => hr e.symm
    simp [mapassign, mapdelete, Map.Get, Map.Len, Map.Set, Map.Delete, Map.Clear, mapaccess2,
      maplen, afterCall, hm, hr, hr2]

theorem All_copy_is_independent_witness :
    oneEntry.2.Allocated oneEntry.1 ∧
    ∃ h1 all, oneEntry.2.All (storedOrder Nat Nat) oneEntry.1 = .ok (h1, all) ∧
      (oneEntry.2.Clear h1).1.table all = h1.table all := by
  refine ⟨by decide, ?_⟩
  obtain ⟨h1, all, hall, _, _, _, _, hclear⟩ :=
    All_copy_is_independent (storedOrder Nat Nat) oneEntry.1 oneEntry.2 (by decide)
  exact ⟨h1, all, hall, hclear⟩

/-- C11. `Random` reports found exactly when the map has an entry; when found, the
returned pair is an entry of the map (`Get` of the key returns the value and `true`);
when not found, key and value are the zero values. Holds for every iteration order. -/
theorem Random_returns_an_entry [Inhabited K] [Inhabited V] (it : IterOrder K V)
    (h : Heap K V) (m : Map K V) :
    ((m.Random it h).2.2 = true ↔ 0 < m.Len h) ∧
    ((m.Random it h).2.2 = true → m.Get h (m.Random it h).1 = ((m.Random it h).2.1, true)) ∧
    ((m.Random it h).2.2 = false →
      (m.Random it h).1 = default ∧ (m.Random it h).2.1 = default) := by
  have hperm := it.perm (h.table m.m).entries
  unfold Map.Random mapiter Map.Len maplen
  cases ho : it.order (h.table m.m).entries with
  | nil =>
    rw [ho] at hperm
    have hnil : (h.table m.m).entries = [] := List.Perm.eq_nil hperm.symm
    simp [hnil]
  | cons e l =>
    rw [ho] at hperm
    have he : e ∈ (h.table m.m).entries := hperm.subset (List.mem_cons_self _ _)
    have hpos : 0 < (h.table m.m).entries.length := List.length_pos_of_mem he
    simp only [List.map_cons, true_iff, forall_true_left, Bool.true_eq_false, false_implies,
      and_true]
    exact ⟨hpos, Get_of_mem_entries h m e he⟩

theorem Random_returns_an_entry_witness :
    (oneEntry.2.Random (storedOrder Nat Nat) oneEntry.1).2.2 = true ∧
    oneEntry.2.Get oneEntry.1 (oneEntry.2.Random (storedOrder Nat Nat) oneEntry.1).1
      = ((oneEntry.2.Random (storedOrder Nat Nat) oneEntry.1).2.1, true) ∧
    (afterNullDocument.2.1.Random (storedOrder Nat Nat) afterNullDocument.1).2.2 = false ∧
    (afterNullDocument.2.1.Random (storedOrder Nat Nat) afterNullDocument.1).1 = 0 :=
  ⟨rfl,
    (Random_returns_an_entry (storedOrder Nat Nat) oneEntry.1 oneEntry.2).2.1 rfl,
    rfl,
    ((Random_returns_an_entry (storedOrder Nat Nat) afterNullDocument.1
      afterNullDocument.2.1).2.2 rfl).1⟩

/-- C12. `Keys` returns a sequence without repetition whose members are exactly the
keys that `Get` finds, so each such key occurs once; its length is `Len()`, and it is
empty when the map has no entry. Holds for every iteration order. -/
theorem Keys_lists_each_key_once [Inhabited V] (it : IterOrder K V) (h : Heap K V)
    (m : Map K V) :
    (m.Keys it h).Nodup ∧
    (∀ k, k ∈ m.Keys it h ↔ (m.Get h k).2 = true) ∧
    (∀ k, (m.Keys it h).count k = if (m.Get h k).2 = true then 1 else 0) ∧
    (m.Keys it h).length = m.Len h ∧
    (m.Len h = 0 → m.Keys it h = []) := by
  have hp := Keys_perm it h m
  have hnd : (m.Keys it h).Nodup := hp.nodup_iff.2 (h.table m.m).keys_nodup
  have hmem : ∀ k, k ∈ m.Keys it h ↔ (m.Get h k).2 = true := fun k => by
    rw [Get_found_iff_mem, hp.mem_iff]
  have hlen : (m.Keys it h).length = m.Len h := by
    rw [hp.length_eq]
    simp [AList.keys, List.keys, Map.Len, maplen]
  refine ⟨hnd, hmem, ?_, hlen, ?_⟩
  · intro k
    by_cases hk : (m.Get h k).2 = true
    · rw [if_pos hk]
      exact List.count_eq_one_of_mem hnd ((hmem k).2 hk)
    · rw [if_neg hk]
      exact List.count_eq_zero_of_not_mem (fun hin => hk ((hmem k).1 hin))
  · intro h0
    rw [← hlen] at h0
    exact List.eq_nil_of_length_eq_zero h0

theorem Keys_lists_each_key_once_witness :
    afterNullDocument.2.1.Len afterNullDocument.1 = 0 ∧
    afterNullDocument.2.1.Keys (reversedOrder Nat Nat) afterNullDocument.1 = [] :=
  ⟨rfl,
    (Keys_lists_each_key_once (reversedOrder Nat Nat) afterNullDocument.1
      afterNullDocument.2.1).2.2.2.2 rfl⟩

/-- C13. `Values` returns, up to order, the value `Get` returns for each key of
`Keys`, one occurrence per key, whatever the two iteration orders; its length is
`Len()`, and it is empty when the map has no entry. -/
theorem Values_lists_one_value_per_key [Inhabited V] (it it2 : IterOrder K V) (h : Heap K V)
    (m : Map K V) :
    List.Perm (m.Values it h) ((m.Keys it2 h).map (fun k => (m.Get h k).1)) ∧
    (m.Values it h).length = m.Len h ∧
    (m.Len h = 0 → m.Values it h = []) := by
  have hlen : (m.Values it h).length = m.Len h := by
    rw [Values_eq, List.length_map, (it.perm _).length_eq]
    rfl
  refine ⟨?_, hlen, ?_⟩
  · rw [Values_eq, Keys_eq, List.map_map]
    have hcongr : (it2.order (h.table m.m).entries).map
        ((fun k => (m.Get h k).1) ∘ fun e => e.1)
        = (it2.order (h.table m.m).entries).map (fun e => e.2) := by
      apply List.map_congr_left
      intro e he
      have he2 : e ∈ (h.table m.m).entries := (it2.perm _).subset he
      simp [Get_of_mem_entries h m e he2]
    rw [hcongr]
    exact ((it.perm _).map _).trans ((it2.perm _).map _).symm
  · intro h0
    rw [← hlen] at h0
    exact List.eq_nil_of_length_eq_zero h0

theorem Values_lists_one_value_per_key_witness :
    afterNullDocument.2.1.Len afterNullDocument.1 = 0 ∧
    afterNullDocument.2.1.Values (storedOrder Nat Nat) afterNullDocument.1 = [] :=
  ⟨rfl,
    (Values_lists_one_value_per_key (storedOrder Nat Nat) (reversedOrder Nat Nat)
      afterNullDocument.1 afterNullDocument.2.1).2.2 rfl⟩

/-- C14 fails on the code. In the state left by `New()` and a successful
`UnmarshalJSON("null")` key 1 has no entry and `Len()` is 0; `Set(1, 1)` panics and
`Len()` is still 0 afterwards instead of 1. -/
theorem Len_after_Set_on_nil_container :
    (afterNullDocument.2.1.Get afterNullDocument.1 1).2 = false ∧
    afterNullDocument.2.1.Len afterNullDocument.1 = 0 ∧
    afterNullDocument.2.1.Set afterNullDocument.1 1 1 = .error .assignToNilMap ∧
    afterNullDocument.2.1.Len
      (afterCall afterNullDocument.1 (afterNullDocument.2.1.Set afterNullDocument.1 1 1)) = 0 :=
  ⟨rfl, rfl, rfl, rfl⟩

/-- C15 fails on the code. The state left by `New()` and a successful
`UnmarshalJSON("null")` has no entry (`Len()` is 0), and `MarshalJSON` on it returns
the text `null`, not the empty object; on a map made by `New` it returns the empty
object. -/
theorem MarshalJSON_of_nil_container_is_null :
    afterNullDocument.2.2 = none ∧
    afterNullDocument.2.1.Len afterNullDocument.1 = 0 ∧
    afterNullDocument.2.1.MarshalJSON goJSON afterNullDocument.1 = .ok ['n', 'u', 'l', 'l'] ∧
    (New (Heap.init : Heap Nat Nat)).2.MarshalJSON goJSON (New Heap.init).1
      = .ok [Char.ofNat 123, Char.ofNat 125] :=
  ⟨rfl, rfl, rfl, rfl⟩

/-- C18. `MarshalText` returns what `MarshalJSON` returns, bytes or error, and
`UnmarshalText` returns the error and leaves the heap and the struct that
`UnmarshalJSON` does; with the mutex made explicit, each text hook also performs the
same events as its JSON hook. -/
theorem text_hooks_are_the_JSON_hooks (codec : Codec K V) (h : Heap K V) (m : Map K V)
    (data : Bytes) :
    m.MarshalText codec h = m.MarshalJSON codec h ∧
    m.UnmarshalText codec h data = m.UnmarshalJSON codec h data ∧
    Locked.MarshalText codec h m = Locked.MarshalJSON codec h m ∧
    Locked.UnmarshalText codec h m data = Locked.UnmarshalJSON codec h m data :=
  ⟨rfl, rfl, rfl, rfl⟩

/-- C19. `Set(k, v)` leaves `Get` of every other key unchanged, whether it returns or
panics; and once `Set(k1, v1)` has stored a value, `Get(k1)` returns `(v1, true)` after
any sequence of `Set` and `Delete` calls on other keys. -/
theorem Set_keeps_other_keys [Inhabited V] (codec : Codec K V) (h : Heap K V) (m : Map K V) :
    (∀ k k1 v, k1 ≠ k → m.Get (afterCall h (m.Set h k v)) k1 = m.Get h k1) ∧
    (∀ k1 v1 h1 (calls : List (Call K V)), m.Set h k1 v1 = .ok h1 →
      (∀ c ∈ calls, Call.avoids k1 c) →
      (calls.foldl (step codec) (h1, m)).2.Get (calls.foldl (step codec) (h1, m)).1 k1
        = (v1, true)) := by
  refine ⟨fun k k1 v hne => Get_afterCall_Set_ne h m k k1 v hne, ?_⟩
  intro k1 v1 h1 calls hset hav
  rw [(foldl_step_avoids codec k1 calls (h1, m) hav).2]
  cases hm : m.m with
  | none => simp [Map.Set, mapassign, hm] at hset
  | some r =>
    obtain ⟨h2, hs2, hg⟩ := Set_Get_of_container h m r k1 v1 hm
    rw [hset] at hs2
    injection hs2 with hs2
    rw [hs2]
    exact hg

theorem Set_keeps_other_keys_witness :
    oneEntry.2.Get (afterCall oneEntry.1 (oneEntry.2.Set oneEntry.1 2 9)) 1 = (1, true) ∧
    (([Call.set 2 9, Call.delete 3, Call.set 2 4] : List (Call Nat Nat)).foldl (step goJSON)
        oneEntry).2.Get
      (([Call.set 2 9, Call.delete 3, Call.set 2 4] : List (Call Nat Nat)).foldl (step goJSON)
        oneEntry).1 1 = (1, true) :=
  ⟨((Set_keeps_other_keys goJSON oneEntry.1 oneEntry.2).1 2 1 9 (by decide)).trans rfl,
    (Set_keeps_other_keys goJSON (New Heap.init).1 (New Heap.init).2).2 1 1 oneEntry.1
      [Call.set 2 9, Call.delete 3, Call.set 2 4] rfl
      (by
        intro c hc
        simp only [List.mem_cons, List.mem_singleton, List.not_mem_nil, or_false] at hc
        rcases hc with hc | hc | hc <;> subst hc <;>
          first
          | exact (by decide : (2 : Nat) ≠ 1)
          | exact (by decide : (3 : Nat) ≠ 1))⟩

/-- C17. After `Get`, `Len`, `All`, `Keys`, `Values`, `Random`, `MarshalJSON` or
`MarshalText`, whatever the call returns, the struct is the same, its container holds
the same entries, `Get` and `Len` answer as before, and the call has performed no
write of the container. -/
theorem readers_keep_contents [Inhabited K] [Inhabited V] (codec : Codec K V) (h : Heap K V)
    (m : Map K V) (c : Method K V) (ha : m.Allocated h) (hr : c.isReader = true) :
    (c.after codec h m).2 = m ∧
    (c.after codec h m).1.table m.m = h.table m.m ∧
    (∀ k, (c.after codec h m).2.Get (c.after codec h m).1 k = m.Get h k) ∧
    (c.after codec h m).2.Len (c.after codec h m).1 = m.Len h ∧
    Event.write ∉ c.events codec h m := by
  have hshape : (c.after codec h m).2 = m ∧ (c.after codec h m).1.table m.m = h.table m.m := by
    cases c with
    | all it =>
      simp only [Method.after, All_eq it h m ha]
      refine ⟨trivial, ?_⟩
      cases hm : m.m with
      | none => rfl
      | some r =>
        have hne : r ≠ h.next := Nat.ne_of_lt (ha.lt r hm)
        simp [hne]
    | get key => exact ⟨rfl, rfl⟩
    | len => exact ⟨rfl, rfl⟩
    | random it => exact ⟨rfl, rfl⟩
    | keys it => exact ⟨rfl, rfl⟩
    | values it => exact ⟨rfl, rfl⟩
    | marshalJSON => exact ⟨rfl, rfl⟩
    | marshalText => exact ⟨rfl, rfl⟩
    | set key value => exact absurd hr (by simp [Method.isReader])
    | delete key => exact absurd hr (by simp [Method.isReader])
    | clear => exact absurd hr (by simp [Method.isReader])
    | unmarshalJSON data => exact absurd hr (by simp [Method.isReader])
    | unmarshalText data => exact absurd hr (by simp [Method.isReader])
  obtain ⟨h1, h2⟩ := hshape
  refine ⟨h1, h2, ?_, ?_, ?_⟩
  · intro k
    rw [h1]
    simp [Map.Get, mapaccess2, h2]
  · rw [h1]
    simp [Map.Len, maplen, h2]
  · cases c with
    | all it =>
      simp [Method.events, Locked.All, bind, pure, emit, reading, ranging]
    | random it =>
      simp [Method.events, Locked.Random, bind, pure, emit, reading, ranging]
      cases (mapiter it h m.m).take 1 <;> simp
    | get key => simp [Method.events, Locked.Get, bind, pure, emit, reading]
    | len => simp [Method.events, Locked.Len, bind, pure, emit, reading]
    | keys it => simp [Method.events, Locked.Keys, bind, pure, emit, ranging]
    | values it => simp [Method.events, Locked.Values, bind, pure, emit, ranging]
    | marshalJSON => simp [Method.events, Locked.MarshalJSON, bind, pure, emit, reading]
    | marshalText =>
      simp [Method.events, Locked.MarshalText, Locked.MarshalJSON, bind, pure, emit, reading]
    | set key value => exact absurd hr (by simp [Method.isReader])
    | delete key => exact absurd hr (by simp [Method.isReader])
    | clear => exact absurd hr (by simp [Method.isReader])
    | unmarshalJSON data => exact absurd hr (by simp [Method.isReader])
    | unmarshalText data => exact absurd hr (by simp [Method.isReader])

theorem readers_keep_contents_witness :
    oneEntry.2.Allocated oneEntry.1 ∧
    ((Method.all (storedOrder Nat Nat)).after goJSON oneEntry.1 oneEntry.2).2.Get
      ((Method.all (storedOrder Nat Nat)).after goJSON oneEntry.1 oneEntry.2).1 1 = (1, true) :=
  ⟨by decide,
    ((readers_keep_contents goJSON oneEntry.1 oneEntry.2 (Method.all (storedOrder Nat Nat))
      (by decide) rfl).2.2.1 1).trans rfl⟩

/-- C20. With the mutex modelled as unlocked, shared or exclusive: every method holds
it in the required mode around all its accesses to the container (shared for `Get`,
`All`, `Len`, `Random`, `Keys`, `Values` and the serializing hooks; exclusive for
`Set`, `Delete`, `Clear` and the swap of a deserialization that decodes), a
deserialization whose decoding fails performs no mutex operation at all, and the events
of every call replay from the unlocked state, each one allowed, back to unlocked. -/
theorem methods_hold_the_mutex [Inhabited K] [Inhabited V] (codec : Codec K V) (h : Heap K V)
    (m : Map K V) (c : Method K V) :
    HeldIn (c.requiredMode codec) (c.events codec h m) ∧
    replay .unlocked (c.events codec h m) = some .unlocked := by
  have hheld : HeldIn (c.requiredMode codec) (c.events codec h m) := by
    cases c with
    | get key => exact ⟨1, rfl⟩
    | len => exact ⟨1, rfl⟩
    | marshalJSON => exact ⟨1, rfl⟩
    | marshalText => exact ⟨1, rfl⟩
    | all it => exact HeldIn_shared_of_ranging _ 1
    | keys it => exact HeldIn_shared_of_ranging (mapiter it h m.m) 0
    | values it => exact HeldIn_shared_of_ranging (mapiter it h m.m) 0
    | random it =>
      have hev : (Method.random it).events codec h m
          = Event.rlock :: (List.replicate 0 Event.read ++
              ((ranging ((mapiter it h m.m).take 1)).events ++ [Event.runlock])) := by
        simp only [Method.events, Locked.Random]
        cases (mapiter it h m.m).take 1 <;> rfl
      rw [hev]
      exact HeldIn_shared_of_ranging _ 0
    | set key value => exact ⟨[Event.write], rfl, by simp⟩
    | delete key => exact ⟨[Event.write], rfl, by simp⟩
    | clear => exact ⟨[Event.write], rfl, by simp⟩
    | unmarshalJSON data =>
      simp only [Method.events, Method.requiredMode, UnmarshalJSON_events]
      cases (codec.unmarshal data).err with
      | none => exact ⟨[Event.write], rfl, by simp⟩
      | some e => rfl
    | unmarshalText data =>
      simp only [Method.events, Method.requiredMode, Locked.UnmarshalText, UnmarshalJSON_events]
      cases (codec.unmarshal data).err with
      | none => exact ⟨[Event.write], rfl, by simp⟩
      | some e => rfl
  exact ⟨hheld, replay_of_HeldIn _ _ hheld⟩

end Claims

end Safemap
